import Mathlib

/-!
Verification of the snapshot computation engine of hub.stx.pub.

The TypeScript sources are shallowly embedded: each database query is
replaced by the list of rows it returns (passed in as an argument), the
JavaScript `Map`/`Set` containers become insertion-ordered association
lists with the same `get`/`set` semantics, and the numeric values that the
code manipulates as JavaScript numbers are modelled as `Int` (all the
quantities involved — block heights, sats, microSTX — are integers in the
stores).  Fractional displays (`stxEarnt`, `winRate`) are modelled as `Rat`.
-/

namespace HubStx

/-! ## JavaScript `Map` semantics over association lists

A JavaScript `Map` iterates in insertion order and holds each key at most
once; `set` overwrites the value in place when the key is present and
appends at the end otherwise.  We model it as an association list whose
keys stay unique because every update goes through `mapSet`. -/

/-- `Map.get`: value of the first matching key, if any. -/
def mapGet {κ α : Type} [DecidableEq κ] : List (κ × α) → κ → Option α
  | [], _ => none
  | p :: m, k => if p.1 = k then some p.2 else mapGet m k

/-- `Map.set`: overwrite in place when the key exists, else append. -/
def mapSet {κ α : Type} [DecidableEq κ] : List (κ × α) → κ → α → List (κ × α)
  | [], k, v => [(k, v)]
  | p :: m, k, v => if p.1 = k then (k, v) :: m else p :: mapSet m k v

theorem mapGet_mapSet_self {κ α : Type} [DecidableEq κ]
    (m : List (κ × α)) (k : κ) (v : α) :
    mapGet (mapSet m k v) k = some v := by
  induction m with
  | nil => simp [mapGet, mapSet]
  | cons p m ih =>
    by_cases h : p.1 = k
    · simp [mapGet, mapSet, h]
    · simp [mapGet, mapSet, h, ih]

theorem mapGet_mapSet_ne {κ α : Type} [DecidableEq κ]
    (m : List (κ × α)) (k k' : κ) (v : α) (hne : k ≠ k') :
    mapGet (mapSet m k v) k' = mapGet m k' := by
  induction m with
  | nil => simp [mapGet, mapSet, hne]
  | cons p m ih =>
    by_cases h : p.1 = k
    · have hp : p.1 ≠ k' := by rw [h]; exact hne
      simp [mapGet, mapSet, h, hne, hp]
    · simp only [mapSet, h, if_false]
      simp [mapGet, ih]

theorem mapGet_mapSet (m : List (String × Nat)) (k k' : String) (v : Nat) :
    mapGet (mapSet m k v) k' = if k = k' then some v else mapGet m k' := by
  by_cases h : k = k'
  · subst h; simp [mapGet_mapSet_self]
  · simp [h, mapGet_mapSet_ne m k k' v h]

/-- Keys present after a `mapSet` are the old keys together with the new one. -/
theorem mapGet_isSome_mapSet {κ α : Type} [DecidableEq κ]
    (m : List (κ × α)) (k k' : κ) (v : α) :
    (mapGet (mapSet m k v) k').isSome ↔ (mapGet m k').isSome ∨ k' = k := by
  by_cases h : k = k'
  · subst h; simp [mapGet_mapSet_self]
  · rw [mapGet_mapSet_ne m k k' v h]
    simp [Ne.symm h]

theorem mem_of_mapGet_eq_some {κ α : Type} [DecidableEq κ]
    (m : List (κ × α)) (k : κ) (v : α) (h : mapGet m k = some v) :
    (k, v) ∈ m := by
  induction m with
  | nil => simp [mapGet] at h
  | cons p m ih =>
    rw [mapGet] at h
    by_cases hp : p.1 = k
    · rw [if_pos hp] at h
      have hpv : (k, v) = p := by
        rw [← hp, ← Option.some_inj.mp h]
      rw [hpv]
      exact List.mem_cons_self _ _
    · rw [if_neg hp] at h
      exact List.mem_cons_of_mem p (ih h)

theorem mapGet_eq_some_of_mem {κ α : Type} [DecidableEq κ]
    (m : List (κ × α)) (k : κ) (v : α)
    (hnd : (m.map Prod.fst).Nodup) (h : (k, v) ∈ m) :
    mapGet m k = some v := by
  induction m with
  | nil => simp at h
  | cons p m ih =>
    rw [List.map_cons, List.nodup_cons] at hnd
    rcases List.mem_cons.mp h with h | h
    · rw [← h, mapGet, if_pos rfl]
    · have hk : k ∈ m.map Prod.fst := List.mem_map.mpr ⟨(k, v), h, rfl⟩
      have hp : p.1 ≠ k := fun he => hnd.1 (he ▸ hk)
      rw [mapGet, if_neg hp]
      exact ih hnd.2 h

theorem mapGet_isSome_iff_mem_keys {κ α : Type} [DecidableEq κ]
    (m : List (κ × α)) (k : κ) :
    (mapGet m k).isSome ↔ k ∈ m.map Prod.fst := by
  induction m with
  | nil => simp [mapGet]
  | cons p m ih =>
    rw [mapGet]
    by_cases hp : p.1 = k
    · simp [hp]
    · simp [hp, ih, Ne.symm hp]

theorem mapSet_of_not_mem_keys {κ α : Type} [DecidableEq κ]
    (m : List (κ × α)) (k : κ) (v : α) (h : k ∉ m.map Prod.fst) :
    mapSet m k v = m ++ [(k, v)] := by
  induction m with
  | nil => rfl
  | cons p m ih =>
    rw [List.map_cons] at h
    have hp : p.1 ≠ k := fun he => h (he ▸ List.mem_cons_self _ _)
    rw [mapSet, if_neg hp, List.cons_append,
      ih (fun hm => h (List.mem_cons_of_mem _ hm))]

theorem mapSet_map_fst_of_isSome {κ α : Type} [DecidableEq κ]
    (m : List (κ × α)) (k : κ) (v : α) (h : (mapGet m k).isSome) :
    (mapSet m k v).map Prod.fst = m.map Prod.fst := by
  induction m with
  | nil => simp [mapGet] at h
  | cons p m ih =>
    rw [mapGet] at h
    by_cases hp : p.1 = k
    · rw [mapSet, if_pos hp]
      simp [hp]
    · rw [if_neg hp] at h
      rw [mapSet, if_neg hp]
      simp [ih h]

theorem mem_mapSet_self {κ α : Type} [DecidableEq κ]
    (m : List (κ × α)) (k : κ) (v : α) : (k, v) ∈ mapSet m k v := by
  induction m with
  | nil => simp [mapSet]
  | cons p m ih =>
    by_cases hp : p.1 = k
    · rw [mapSet, if_pos hp]
      exact List.mem_cons_self _ _
    · rw [mapSet, if_neg hp]
      exact List.mem_cons_of_mem p ih

theorem mem_mapSet_of_ne {κ α : Type} [DecidableEq κ]
    (m : List (κ × α)) (k : κ) (v : α) (p : κ × α)
    (hp : p ∈ m) (hne : p.1 ≠ k) : p ∈ mapSet m k v := by
  induction m with
  | nil => simp at hp
  | cons q m ih =>
    by_cases hq : q.1 = k
    · rw [mapSet, if_pos hq]
      rcases List.mem_cons.mp hp with hp | hp
      · exact absurd (hp ▸ hq) hne
      · exact List.mem_cons_of_mem _ hp
    · rw [mapSet, if_neg hq]
      rcases List.mem_cons.mp hp with hp | hp
      · exact hp ▸ List.mem_cons_self q _
      · exact List.mem_cons_of_mem q (ih hp)

theorem mapGet_value_eq {κ α : Type} [DecidableEq κ]
    (m : List (κ × α)) (hnd : (m.map Prod.fst).Nodup)
    (p : κ × α) (hp : p ∈ m) (v : α) (hget : mapGet m p.1 = some v) :
    p.2 = v := by
  have h := mapGet_eq_some_of_mem m p.1 p.2 hnd hp
  rw [h] at hget
  exact Option.some_inj.mp hget

theorem mem_mapSet_elim {κ α : Type} [DecidableEq κ]
    (m : List (κ × α)) (k : κ) (v : α) (p : κ × α)
    (hnd : (m.map Prod.fst).Nodup) (h : p ∈ mapSet m k v) :
    p = (k, v) ∨ (p ∈ m ∧ p.1 ≠ k) := by
  induction m with
  | nil =>
    left
    simpa [mapSet] using h
  | cons q m ih =>
    rw [List.map_cons, List.nodup_cons] at hnd
    by_cases hq : q.1 = k
    · rw [mapSet, if_pos hq] at h
      rcases List.mem_cons.mp h with h | h
      · exact Or.inl h
      · refine Or.inr ⟨List.mem_cons_of_mem q h, fun he => ?_⟩
        exact hnd.1 (hq ▸ he ▸ List.mem_map.mpr ⟨p, h, rfl⟩)
    · rw [mapSet, if_neg hq] at h
      rcases List.mem_cons.mp h with h | h
      · exact Or.inr ⟨h ▸ List.mem_cons_self q m, h ▸ hq⟩
      · rcases ih hnd.2 h with h | ⟨hm, hne⟩
        · exact Or.inl h
        · exact Or.inr ⟨List.mem_cons_of_mem q hm, hne⟩

/-! ## `escapeSqliteString` (src/server/miner-power-service.ts:28-30,
src/server/miner-power.ts:30-32)

`input.replaceAll("'", "''")` doubles every single-quote character.  We
write the single quote as `Char.ofNat 39` and model `replaceAll` of a
one-character pattern by a character-by-character traversal. -/

/-- The single-quote character `U+0027`. -/
def sqliteQuote : Char := Char.ofNat 39

/-- Character-level body of `replaceAll("'", "''")`. -/
def escapeChars : List Char → List Char
  | [] => []
  | c :: cs =>
    if c = sqliteQuote then c :: c :: escapeChars cs else c :: escapeChars cs

/-- `escapeSqliteString(input)`: `input.replaceAll("'", "''")`. -/
def escapeSqliteString (input : String) : String :=
  String.mk (escapeChars input.data)

/-- The spec's example path `path/with'single`, built without a literal
quote character. -/
def sampleQuotedPath : String :=
  "path/with" ++ String.mk [sqliteQuote] ++ "single"

/-- The spec's expected escape `path/with''single`. -/
def sampleEscapedPath : String :=
  "path/with" ++ String.mk [sqliteQuote, sqliteQuote] ++ "single"

theorem escapeChars_eq_flatMap (l : List Char) :
    escapeChars l =
      l.flatMap
        (fun c => if c = sqliteQuote then [sqliteQuote, sqliteQuote] else [c]) := by
  induction l with
  | nil => rfl
  | cons c cs ih =>
    by_cases h : c = sqliteQuote
    · subst h; simp [escapeChars, ih]
    · simp [escapeChars, h, ih]

theorem escapeChars_of_not_mem (l : List Char) (h : sqliteQuote ∉ l) :
    escapeChars l = l := by
  induction l with
  | nil => rfl
  | cons c cs ih =>
    have hc : c ≠ sqliteQuote := fun hc => h (hc ▸ List.mem_cons_self c cs)
    have hcs : sqliteQuote ∉ cs := fun hm => h (List.mem_cons_of_mem c hm)
    simp [escapeChars, hc, ih hcs]

/-! ## Snapshot store (src/server/snapshot-store.ts, and its variant in the
scheduler module)

The `miner_snapshots` table is an append-only log ordered by `rowid`; we
model it as a list in insertion order.  `generated_at` is an ISO-8601
string of fixed shape, on which SQLite's text comparison agrees with
chronological order, so we model it as the underlying millisecond
timestamp (an `Int`). -/

/-- One row of `miner_snapshots`. -/
structure SnapshotRecord where
  generatedAt : Int
  bitcoinBlockHeight : Int
  sortitionId : Option String
  minerPowerJson : String
  d2Source : String
deriving DecidableEq, Repr

/-- `insertSnapshot`: a single `INSERT` appends one complete row. -/
def insertSnapshot (store : List SnapshotRecord) (record : SnapshotRecord) :
    List SnapshotRecord :=
  store ++ [record]

/-- Default retention window: `1000 * 60 * 60 * 24` ms (24h). -/
def SNAPSHOT_MAX_AGE_MS : Int := 1000 * 60 * 60 * 24

/-- `pruneSnapshots`: `DELETE FROM miner_snapshots WHERE generated_at < cutoff`
with `cutoff = Date.now() - maxAgeMs`; the rows kept are exactly those not
matching the predicate, in unchanged order. -/
def pruneSnapshots (now maxAgeMs : Int) (store : List SnapshotRecord) :
    List SnapshotRecord :=
  store.filter (fun r => !decide (r.generatedAt < now - maxAgeMs))

/-- `loadLatestSnapshot`: `ORDER BY rowid DESC LIMIT 1`, i.e. the last
inserted row, if any. -/
def loadLatestSnapshot (store : List SnapshotRecord) : Option SnapshotRecord :=
  store.getLast?

end HubStx

namespace HubStx

/-- A record written 48 hours before `sampleNow`. -/
def sampleNow : Int := 1700000000000

/-- The 48h-old record of the spec's retention example. -/
def staleRecord : SnapshotRecord :=
  ⟨sampleNow - 2 * SNAPSHOT_MAX_AGE_MS, 100, none, "[]", ""⟩

/-- The current record of the spec's retention example. -/
def freshRecord : SnapshotRecord :=
  ⟨sampleNow, 101, none, "[]", ""⟩

/-- C7: a prune pass deletes exactly the snapshot records whose
`generatedAt` is older than `now - maxAgeMs` and keeps every other record
unchanged and in order; with one 48h-old record and one current record and
the default 24h retention window, exactly the current record remains. -/
theorem pruneSnapshots_correct (now maxAgeMs : Int)
    (store : List SnapshotRecord) :
    pruneSnapshots now maxAgeMs store =
        store.filter (fun r => !decide (r.generatedAt < now - maxAgeMs))
    ∧ (∀ r ∈ store, r.generatedAt < now - maxAgeMs →
        r ∉ pruneSnapshots now maxAgeMs store)
    ∧ (∀ r ∈ store, now - maxAgeMs ≤ r.generatedAt →
        r ∈ pruneSnapshots now maxAgeMs store)
    ∧ pruneSnapshots sampleNow SNAPSHOT_MAX_AGE_MS [staleRecord, freshRecord]
        = [freshRecord] := by
  refine ⟨rfl, ?_, ?_, by decide⟩
  · intro r hr hold hmem
    have := (List.mem_filter.mp hmem).2
    simp only [Bool.not_eq_true', decide_eq_false_iff_not, not_lt] at this
    omega
  · intro r hr hkeep
    refine List.mem_filter.mpr ⟨hr, ?_⟩
    simp only [Bool.not_eq_true', decide_eq_false_iff_not, not_lt]
    omega

/-- Witness for `pruneSnapshots_correct` at the retention example. -/
theorem pruneSnapshots_correct_witness :
    freshRecord ∈ pruneSnapshots sampleNow SNAPSHOT_MAX_AGE_MS
      [staleRecord, freshRecord] :=
  (pruneSnapshots_correct sampleNow SNAPSHOT_MAX_AGE_MS
      [staleRecord, freshRecord]).2.2.1 freshRecord (by decide) (by decide)

/-- C9: `escapeSqliteString` doubles each single-quote character of its
input (in particular `path/with'single` becomes `path/with''single`) and
returns any string containing no single quote unchanged. -/
theorem escapeSqliteString_correct (s : String) :
    (escapeSqliteString s).data =
        s.data.flatMap
          (fun c => if c = sqliteQuote then [sqliteQuote, sqliteQuote] else [c])
    ∧ (sqliteQuote ∉ s.data → escapeSqliteString s = s)
    ∧ escapeSqliteString sampleQuotedPath = sampleEscapedPath := by
  refine ⟨?_, ?_, by decide⟩
  · simp [escapeSqliteString, escapeChars_eq_flatMap]
  · intro h
    rw [escapeSqliteString, escapeChars_of_not_mem s.data h]

/-- Witness for `escapeSqliteString_correct`: the quote-free input
`path` is returned unchanged. -/
theorem escapeSqliteString_correct_witness :
    escapeSqliteString "path" = "path" :=
  (escapeSqliteString_correct "path").2.1 (by decide)

/-! ## `parseCostVector` (blocks service)

The cost payload is a JSON text column.  `JSON.parse` is a platform
primitive, so it enters the model as an oracle `String → Option Json`
(`none` = the parse threw).  JavaScript numbers that reach the cost vector
are modelled as `Option Int`, with `none` standing for `NaN`; the
quantities stored in the chainstate are integral. -/

/-- A parsed JSON value. -/
inductive Json where
  | null
  | bool (b : Bool)
  | num (n : Int)
  | str (s : String)
  | arr (elems : List Json)
  | obj (fields : List (String × Json))

/-- Property access `parsed.k`: a field of an object, `undefined` (`none`)
on a missing field or a non-object. -/
def Json.getField : Json → String → Option Json
  | Json.obj fields, k => mapGet fields k
  | _, _ => none

/-- The nullish-coalescing step `a ?? b` for a possibly-absent field:
`undefined` and `null` fall through to the right operand. -/
def nullishOr (v : Option Json) (w : Option Json) : Option Json :=
  match v with
  | none => w
  | some Json.null => w
  | some x => some x

/-- Final `?? 0` of the coalescing chain. -/
def nullishOrZero (v : Option Json) : Json :=
  match v with
  | none => Json.num 0
  | some Json.null => Json.num 0
  | some x => x

/-- `Number(s)` on a string: whitespace-only gives `0`, a decimal integer
parses, anything else is `NaN` (fractional/hex/exponent forms are outside
the integral model and also map to `none`). -/
def jsStringToNumber (s : String) : Option Int :=
  if s.trim = "" then some 0 else s.trim.toInt?

/-- `Number(v)` on a JSON value; `none` is `NaN`.  Arrays and objects
coerce through string conversion in JavaScript and are collapsed to `NaN`
here (no cost payload stores them). -/
def jsToNumber : Json → Option Int
  | Json.null => some 0
  | Json.bool b => some (if b then 1 else 0)
  | Json.num n => some n
  | Json.str s => jsStringToNumber s
  | Json.arr _ => none
  | Json.obj _ => none

/-- `Number(parsed.camel ?? parsed.snake ?? 0)`. -/
def costField (parsed : Json) (camel snake : String) : Option Int :=
  jsToNumber (nullishOrZero (nullishOr (parsed.getField camel) (parsed.getField snake)))

/-- The cost vector of a block; each field is a JavaScript number
(`none` = `NaN`). -/
structure CostVector where
  readLength : Option Int
  readCount : Option Int
  writeLength : Option Int
  writeCount : Option Int
  runtime : Option Int
deriving DecidableEq, Repr

/-- The all-zero cost structure returned on null or malformed payloads. -/
def zeroCostVector : CostVector :=
  ⟨some 0, some 0, some 0, some 0, some 0⟩

/-- `parseCostVector(raw)`: null (or empty, also falsy) input and inputs
on which `JSON.parse` throws yield the zero vector; otherwise each field is
read under its camelCase or snake_case name. -/
def parseCostVector (jsonParse : String → Option Json) (raw : Option String) :
    CostVector :=
  match raw with
  | none => zeroCostVector
  | some s =>
    if s = "" then zeroCostVector
    else
      match jsonParse s with
      | none => zeroCostVector
      | some parsed =>
        { readLength := costField parsed "readLength" "read_length"
          readCount := costField parsed "readCount" "read_count"
          writeLength := costField parsed "writeLength" "write_length"
          writeCount := costField parsed "writeCount" "write_count"
          runtime := jsToNumber (nullishOrZero (parsed.getField "runtime")) }

/-- C8: `parseCostVector` returns the all-zero cost structure on a null
payload and on any payload the JSON parser rejects, and it returns some
cost vector on every input (it never raises). -/
theorem parseCostVector_fallback (jsonParse : String → Option Json)
    (raw : Option String) :
    (raw = none → parseCostVector jsonParse raw = zeroCostVector)
    ∧ (∀ s, raw = some s → jsonParse s = none →
        parseCostVector jsonParse raw = zeroCostVector)
    ∧ ∃ v : CostVector, parseCostVector jsonParse raw = v := by
  refine ⟨?_, ?_, ⟨_, rfl⟩⟩
  · rintro rfl; rfl
  · rintro s rfl hbad
    by_cases hs : s = ""
    · simp [parseCostVector, hs]
    · simp [parseCostVector, hs, hbad]

/-- Witness for `parseCostVector_fallback`: a malformed payload under a
parser that rejects it yields the zero vector. -/
theorem parseCostVector_fallback_witness :
    parseCostVector (fun _ => none) (some "\x7b") = zeroCostVector :=
  (parseCostVector_fallback (fun _ => none) (some "\x7b")).2.1 "\x7b" rfl rfl

end HubStx

namespace HubStx

/-! ## Commit graph builder (src/server/miner-viz.ts)

`fetchCommitData` reads the window's commitments (`block_height BETWEEN
lowerBound AND startBlock`, `ORDER BY block_height ASC`) and ingests them
in order, resolving each commitment's positional parent against the
lookup table before inserting itself.  The query enters the model as the
ordered row list; the `BETWEEN`/`ORDER BY` facts become hypotheses of the
theorems. -/

/-- The lookup-table key `` `${height}:${vtxindex}` `` of `makeHashKey`.
Template formatting of two integers separated by a colon is injective, so
the key is modelled as the pair itself. -/
structure HashKey where
  height : Int
  vtxindex : Int
deriving DecidableEq, Repr

/-- A row of the `block_commits` query (nullable columns are `Option`). -/
structure BlockCommitRow where
  burn_header_hash : String
  txid : String
  apparent_sender : Option String
  sortition_id : Option String
  vtxindex : Option Int
  block_height : Option Int
  burn_fee : Option Int
  parent_block_ptr : Option Int
  parent_vtxindex : Option Int
  memo : Option String
deriving DecidableEq, Repr

/-- The in-memory commitment node, with the resolver's mutable fields. -/
structure BlockCommit where
  burnHeaderHash : String
  txid : String
  vtxindex : Int
  sender : String
  burnBlockHeight : Int
  spend : Int
  sortitionId : String
  parentBlockPtr : Int
  parentVtxindex : Int
  memo : String
  parent : String
  stacksHeight : Int
  blockHash : String
  won : Bool
  canonical : Bool
  tip : Bool
  coinbaseEarned : Int
  feesEarned : Int
  potentialTip : Bool
  nextTip : Bool
  key : HashKey
  parentKey : HashKey
deriving DecidableEq, Repr

/-- The commit literal built from a row inside `fetchCommitData`'s loop
(`?? 0` / `?? ""` defaults on nullable columns; `Number(row.burn_fee) || 0`
keeps the integral fee). -/
def rowToCommit (row : BlockCommitRow) : BlockCommit where
  burnHeaderHash := row.burn_header_hash
  txid := row.txid
  vtxindex := row.vtxindex.getD 0
  sender := row.apparent_sender.getD ""
  burnBlockHeight := row.block_height.getD 0
  spend := row.burn_fee.getD 0
  sortitionId := row.sortition_id.getD ""
  parentBlockPtr := row.parent_block_ptr.getD 0
  parentVtxindex := row.parent_vtxindex.getD 0
  memo := row.memo.getD ""
  parent := ""
  stacksHeight := 0
  blockHash := ""
  won := false
  canonical := false
  tip := false
  coinbaseEarned := 0
  feesEarned := 0
  potentialTip := false
  nextTip := false
  key := ⟨row.block_height.getD 0, row.vtxindex.getD 0⟩
  parentKey := ⟨row.parent_block_ptr.getD 0, row.parent_vtxindex.getD 0⟩

/-- The two containers filled by the first pass of `fetchCommitData`. -/
structure IngestState where
  allCommits : List (String × BlockCommit)
  hashMap : List (HashKey × String)
deriving Repr

/-- Parent resolution against the lookup table: the truthiness guard
skips both a missing entry and an empty txid. -/
def resolveParent (hashMap : List (HashKey × String)) (c0 : BlockCommit) :
    BlockCommit :=
  match mapGet hashMap c0.parentKey with
  | some parentTxid =>
    if parentTxid = "" then c0 else { c0 with parent := parentTxid }
  | none => c0

/-- One iteration of the first pass: resolve the parent against the
lookup table, then insert the commit and register its own key. -/
def ingestRow (st : IngestState) (row : BlockCommitRow) : IngestState :=
  let c := resolveParent st.hashMap (rowToCommit row)
  { allCommits := mapSet st.allCommits c.txid c
    hashMap := mapSet st.hashMap c.key c.txid }

/-- Result shape of `fetchCommitData`. -/
structure BlockCommits where
  sortitionFeesMap : List (String × Int)
  allCommits : List (String × BlockCommit)
  commitsByBlock : List (Int × List BlockCommit)
deriving Repr

/-- One iteration of the second pass over the completed set: bucket the
commit under its height and add its spend to the per-sortition total. -/
def indexCommit (st : List (Int × List BlockCommit) × List (String × Int))
    (c : BlockCommit) :
    List (Int × List BlockCommit) × List (String × Int) :=
  let byBlock :=
    match mapGet st.1 c.burnBlockHeight with
    | some bucket => mapSet st.1 c.burnBlockHeight (bucket ++ [c])
    | none => mapSet st.1 c.burnBlockHeight [c]
  let fees := mapSet st.2 c.sortitionId ((mapGet st.2 c.sortitionId).getD 0 + c.spend)
  (byBlock, fees)

/-- `fetchCommitData`: single-pass ordered ingestion, then the by-height
index and per-sortition spend totals over the completed set. -/
def fetchCommitData (rows : List BlockCommitRow) : BlockCommits :=
  let st := rows.foldl ingestRow ⟨[], []⟩
  let second := (st.allCommits.map (fun p => p.2)).foldl indexCommit ([], [])
  ⟨second.2, st.allCommits, second.1⟩

/-- The first pass of `fetchCommitData` on its own. -/
def ingest (rows : List BlockCommitRow) : IngestState :=
  rows.foldl ingestRow ⟨[], []⟩

/-- `row.block_height ?? 0`, the height a commit is bucketed under. -/
def rowHeight (row : BlockCommitRow) : Int := row.block_height.getD 0

/-- The key a row registers in the lookup table. -/
def rowKey (row : BlockCommitRow) : HashKey :=
  ⟨row.block_height.getD 0, row.vtxindex.getD 0⟩

/-- The positional parent key of a row. -/
def rowParentKey (row : BlockCommitRow) : HashKey :=
  ⟨row.parent_block_ptr.getD 0, row.parent_vtxindex.getD 0⟩

theorem fetchCommitData_allCommits (rows : List BlockCommitRow) :
    (fetchCommitData rows).allCommits = (ingest rows).allCommits := rfl

theorem ingest_append_singleton (rows : List BlockCommitRow)
    (row : BlockCommitRow) :
    ingest (rows ++ [row]) = ingestRow (ingest rows) row := by
  simp [ingest, List.foldl_append]

/-- Parent resolution changes nothing but the `parent` field. -/
theorem resolveParent_fields (hashMap : List (HashKey × String))
    (c0 : BlockCommit) :
    (resolveParent hashMap c0).txid = c0.txid
    ∧ (resolveParent hashMap c0).key = c0.key
    ∧ (resolveParent hashMap c0).parentKey = c0.parentKey
    ∧ (resolveParent hashMap c0).burnBlockHeight = c0.burnBlockHeight
    ∧ (resolveParent hashMap c0).tip = c0.tip
    ∧ (resolveParent hashMap c0).canonical = c0.canonical := by
  unfold resolveParent
  cases h : mapGet hashMap c0.parentKey with
  | none => exact ⟨rfl, rfl, rfl, rfl, rfl, rfl⟩
  | some t =>
    by_cases ht : t = "" <;> simp [ht]

theorem resolveParent_of_none (hashMap : List (HashKey × String))
    (c0 : BlockCommit) (h : mapGet hashMap c0.parentKey = none) :
    resolveParent hashMap c0 = c0 := by
  unfold resolveParent
  rw [h]

theorem resolveParent_of_some (hashMap : List (HashKey × String))
    (c0 : BlockCommit) (t : String)
    (h : mapGet hashMap c0.parentKey = some t) (ht : t ≠ "") :
    resolveParent hashMap c0 = { c0 with parent := t } := by
  unfold resolveParent
  rw [h]
  simp [ht]

/-- Invariant of the ordered single-pass ingestion, for a row list that is
sorted ascending by height, has strictly lower positional parents, and has
distinct non-empty txids (all guaranteed by the query and the store
schema): the commit list mirrors the rows in order; the lookup table holds
exactly the keys of the ingested rows, mapping to non-empty txids present
in the graph under the same key; and every commit's resolved `parent` is
non-empty exactly when some row of the window carries its parent key, in
which case the referenced commit is in the graph under the parent key. -/
theorem ingest_invariant (rows : List BlockCommitRow) :
    rows.Pairwise (fun r1 r2 => rowHeight r1 ≤ rowHeight r2) →
    (∀ row ∈ rows, row.parent_block_ptr.getD 0 < rowHeight row) →
    (∀ row ∈ rows, row.txid ≠ "") →
    (rows.map (fun r => r.txid)).Nodup →
    ((ingest rows).allCommits.map Prod.fst = rows.map (fun r => r.txid))
    ∧ (∀ k, ((mapGet (ingest rows).hashMap k).isSome
        ↔ ∃ row ∈ rows, rowKey row = k))
    ∧ (∀ k t, mapGet (ingest rows).hashMap k = some t →
        t ≠ "" ∧ ∃ c, (t, c) ∈ (ingest rows).allCommits ∧ c.key = k)
    ∧ (∀ p ∈ (ingest rows).allCommits,
        ∃ row ∈ rows, p.1 = row.txid ∧ p.2.txid = row.txid
          ∧ p.2.key = rowKey row ∧ p.2.parentKey = rowParentKey row
          ∧ p.2.burnBlockHeight = rowHeight row
          ∧ p.2.tip = false ∧ p.2.canonical = false
          ∧ (p.2.parent ≠ "" ↔ ∃ row' ∈ rows, rowKey row' = p.2.parentKey)
          ∧ (p.2.parent ≠ "" → ∃ q ∈ (ingest rows).allCommits,
              q.1 = p.2.parent ∧ q.2.key = p.2.parentKey)) := by
  induction rows using List.reverseRecOn with
  | nil =>
    intro _ _ _ _
    refine ⟨rfl, ?_, ?_, ?_⟩ <;> simp [ingest, mapGet]
  | append_singleton pre row ih =>
    intro hsorted hparent htxids hnodup
    obtain ⟨hsorted_pre, _, hle⟩ := List.pairwise_append.mp hsorted
    have hle' : ∀ r ∈ pre, rowHeight r ≤ rowHeight row := fun r hr =>
      hle r hr row (List.mem_singleton.mpr rfl)
    have hparent_pre : ∀ r ∈ pre, r.parent_block_ptr.getD 0 < rowHeight r :=
      fun r hr => hparent r (List.mem_append_left _ hr)
    have hparent_row : row.parent_block_ptr.getD 0 < rowHeight row :=
      hparent row (List.mem_append_right _ (List.mem_singleton.mpr rfl))
    have htxids_pre : ∀ r ∈ pre, r.txid ≠ "" := fun r hr =>
      htxids r (List.mem_append_left _ hr)
    have hnodup' := hnodup
    rw [List.map_append, List.map_singleton] at hnodup'
    have hnodup_pre : (pre.map (fun r => r.txid)).Nodup :=
      (List.nodup_append.mp hnodup').1
    have hfresh : row.txid ∉ pre.map (fun r => r.txid) := fun hmem =>
      (List.nodup_append.mp hnodup').2.2 hmem (List.mem_singleton.mpr rfl)
    obtain ⟨ih1, ih2, ih3, ih4⟩ := ih hsorted_pre hparent_pre htxids_pre hnodup_pre
    have hcf := resolveParent_fields (ingest pre).hashMap (rowToCommit row)
    have hctxid : (resolveParent (ingest pre).hashMap (rowToCommit row)).txid
        = row.txid := hcf.1
    have hckey : (resolveParent (ingest pre).hashMap (rowToCommit row)).key
        = rowKey row := hcf.2.1
    have hcpkey : (resolveParent (ingest pre).hashMap (rowToCommit row)).parentKey
        = rowParentKey row := hcf.2.2.1
    have hcheight : (resolveParent (ingest pre).hashMap (rowToCommit row)).burnBlockHeight
        = rowHeight row := hcf.2.2.2.1
    have hst : ingest (pre ++ [row])
        = ⟨mapSet (ingest pre).allCommits row.txid
            (resolveParent (ingest pre).hashMap (rowToCommit row)),
           mapSet (ingest pre).hashMap (rowKey row) row.txid⟩ := by
      rw [ingest_append_singleton]
      show IngestState.mk _ _ = _
      rw [hctxid, hckey]
    have hAC : (ingest (pre ++ [row])).allCommits
        = (ingest pre).allCommits
          ++ [(row.txid, resolveParent (ingest pre).hashMap (rowToCommit row))] := by
      rw [hst]
      exact mapSet_of_not_mem_keys _ _ _ (by rw [ih1]; exact hfresh)
    have hHM : (ingest (pre ++ [row])).hashMap
        = mapSet (ingest pre).hashMap (rowKey row) row.txid := by rw [hst]
    have hkeyheight : ∀ r : BlockCommitRow, (rowKey r).height = rowHeight r :=
      fun r => rfl
    have hpkeyheight : ∀ r : BlockCommitRow,
        (rowParentKey r).height = r.parent_block_ptr.getD 0 := fun r => rfl
    refine ⟨?_, ?_, ?_, ?_⟩
    · rw [hAC, List.map_append, ih1, List.map_append]
      rfl
    · intro k
      rw [hHM, mapGet_isSome_mapSet]
      constructor
      · rintro (hk | rfl)
        · obtain ⟨row', hm, hkeq⟩ := (ih2 k).mp hk
          exact ⟨row', List.mem_append_left _ hm, hkeq⟩
        · exact ⟨row, List.mem_append_right _ (List.mem_singleton.mpr rfl), rfl⟩
      · rintro ⟨row', hm, hkeq⟩
        rcases List.mem_append.mp hm with hm | hm
        · exact Or.inl ((ih2 k).mpr ⟨row', hm, hkeq⟩)
        · rw [List.mem_singleton.mp hm] at hkeq
          exact Or.inr hkeq.symm
    · intro k t hkt
      rw [hHM] at hkt
      by_cases hk : rowKey row = k
      · rw [← hk, mapGet_mapSet_self] at hkt
        obtain rfl : row.txid = t := Option.some_inj.mp hkt
        refine ⟨htxids row (List.mem_append_right _ (List.mem_singleton.mpr rfl)),
          resolveParent (ingest pre).hashMap (rowToCommit row), ?_, ?_⟩
        · rw [hAC]
          exact List.mem_append_right _ (List.mem_singleton.mpr rfl)
        · rw [hckey, hk]
      · rw [mapGet_mapSet_ne _ _ _ _ hk] at hkt
        obtain ⟨ht, c', hc'mem, hc'key⟩ := ih3 k t hkt
        exact ⟨ht, c', by rw [hAC]; exact List.mem_append_left _ hc'mem, hc'key⟩
    · intro p hp
      rw [hAC] at hp
      rcases List.mem_append.mp hp with hp | hp
      · obtain ⟨row_p, hrowp, h1, h2, h3, h4, h5, h6, h7, hiff, hq⟩ := ih4 p hp
        refine ⟨row_p, List.mem_append_left _ hrowp, h1, h2, h3, h4, h5, h6, h7,
          ?_, ?_⟩
        · constructor
          · intro hpar
            obtain ⟨row', hm, hkeq⟩ := hiff.mp hpar
            exact ⟨row', List.mem_append_left _ hm, hkeq⟩
          · rintro ⟨row', hm, hkeq⟩
            rcases List.mem_append.mp hm with hm | hm
            · exact hiff.mpr ⟨row', hm, hkeq⟩
            · exfalso
              rw [List.mem_singleton.mp hm] at hkeq
              have hhe : rowHeight row = (p.2.parentKey).height :=
                congrArg HashKey.height hkeq
              rw [h4, hpkeyheight] at hhe
              have hlt := hparent_pre row_p hrowp
              have hle2 := hle' row_p hrowp
              omega
        · intro hpar
          obtain ⟨q, hqmem, hq1, hq2⟩ := hq hpar
          exact ⟨q, by rw [hAC]; exact List.mem_append_left _ hqmem, hq1, hq2⟩
      · rw [List.mem_singleton.mp hp]
        refine ⟨row, List.mem_append_right _ (List.mem_singleton.mpr rfl),
          rfl, hctxid, hckey, hcpkey, hcheight, hcf.2.2.2.2.1, hcf.2.2.2.2.2,
          ?_, ?_⟩
        · cases hres : mapGet (ingest pre).hashMap (rowParentKey row) with
          | none =>
            have hcc : resolveParent (ingest pre).hashMap (rowToCommit row)
                = rowToCommit row := resolveParent_of_none _ _ hres
            rw [hcc]
            constructor
            · intro hpar
              exact absurd rfl hpar
            · rintro ⟨row', hm, hkeq⟩
              exfalso
              have hkeq' : rowKey row' = rowParentKey row := hkeq
              rcases List.mem_append.mp hm with hm | hm
              · have := (ih2 (rowParentKey row)).mpr ⟨row', hm, hkeq'⟩
                rw [hres] at this
                exact absurd this (by simp)
              · rw [List.mem_singleton.mp hm] at hkeq'
                have hhe : rowHeight row = row.parent_block_ptr.getD 0 :=
                  congrArg HashKey.height hkeq'
                omega
          | some t =>
            obtain ⟨ht, c', hc'mem, hc'key⟩ := ih3 _ t hres
            have hcc : resolveParent (ingest pre).hashMap (rowToCommit row)
                = { rowToCommit row with parent := t } :=
              resolveParent_of_some _ _ t hres ht
            rw [hcc]
            constructor
            · intro _
              have hsome : (mapGet (ingest pre).hashMap (rowParentKey row)).isSome := by
                rw [hres]; rfl
              obtain ⟨row', hm, hkeq⟩ := (ih2 (rowParentKey row)).mp hsome
              exact ⟨row', List.mem_append_left _ hm, hkeq⟩
            · intro _
              exact ht
        · cases hres : mapGet (ingest pre).hashMap (rowParentKey row) with
          | none =>
            have hcc : resolveParent (ingest pre).hashMap (rowToCommit row)
                = rowToCommit row := resolveParent_of_none _ _ hres
            rw [hcc]
            intro hpar
            exact absurd rfl hpar
          | some t =>
            obtain ⟨ht, c', hc'mem, hc'key⟩ := ih3 _ t hres
            have hcc : resolveParent (ingest pre).hashMap (rowToCommit row)
                = { rowToCommit row with parent := t } :=
              resolveParent_of_some _ _ t hres ht
            rw [hcc]
            intro _
            refine ⟨(t, c'), ?_, rfl, ?_⟩
            · rw [hAC]
              exact List.mem_append_left _ hc'mem
            · rw [hc'key]
              rfl

/-- C2: after the graph builder ingests the window's commitments (ordered
ascending by height, positional parents strictly below their child, txids
unique and non-empty as the store guarantees), a commitment's parent
reference is non-empty iff a commitment with matching
`(parentHeight, parentVtxindex)` key exists in the same window's graph;
and a positional parent below the window's lower bound always yields an
empty parent. -/
theorem fetchCommitData_parent_iff (rows : List BlockCommitRow)
    (lowerBound : Int)
    (hsorted : rows.Pairwise (fun r1 r2 => rowHeight r1 ≤ rowHeight r2))
    (hparent : ∀ row ∈ rows, row.parent_block_ptr.getD 0 < rowHeight row)
    (htxids : ∀ row ∈ rows, row.txid ≠ "")
    (hnodup : (rows.map (fun r => r.txid)).Nodup)
    (hlow : ∀ row ∈ rows, lowerBound ≤ rowHeight row) :
    ∀ p ∈ (fetchCommitData rows).allCommits,
      (p.2.parent ≠ ""
        ↔ ∃ q ∈ (fetchCommitData rows).allCommits, q.2.key = p.2.parentKey)
      ∧ (p.2.parentKey.height < lowerBound → p.2.parent = "") := by
  obtain ⟨inv1, inv2, inv3, inv4⟩ :=
    ingest_invariant rows hsorted hparent htxids hnodup
  intro p hp
  rw [fetchCommitData_allCommits] at hp
  obtain ⟨row_p, hrow_p, _, _, _, _, _, _, _, hiff, hq⟩ := inv4 p hp
  constructor
  · constructor
    · intro hpar
      obtain ⟨q, hqmem, hq1, hq2⟩ := hq hpar
      exact ⟨q, by rw [fetchCommitData_allCommits]; exact hqmem, hq2⟩
    · rintro ⟨q, hqmem, hqkey⟩
      rw [fetchCommitData_allCommits] at hqmem
      obtain ⟨row_q, hrow_q, _, _, hqkey', _, _, _, _, _, _⟩ := inv4 q hqmem
      exact hiff.mpr ⟨row_q, hrow_q, by rw [← hqkey', hqkey]⟩
  · intro hlt
    by_contra hpar
    obtain ⟨row', hm, hkeq⟩ := hiff.mp hpar
    have hge : lowerBound ≤ rowHeight row' := hlow row' hm
    have hhe : rowHeight row' = p.2.parentKey.height :=
      congrArg HashKey.height hkeq
    omega

/-- A child row at height 11 whose positional parent `(10, 0)` is in the
window, and its parent row at height 10 whose own positional parent
`(0, 0)` is below the lower bound 5. -/
def wrow1 : BlockCommitRow :=
  ⟨"bh1", "t1", none, none, some 0, some 10, some 3, some 0, some 0, none⟩

/-- See `wrow1`. -/
def wrow2 : BlockCommitRow :=
  ⟨"bh2", "t2", none, none, some 1, some 11, some 4, some 10, some 0, none⟩

/-- Default pair for indexing into commit lists. -/
def wdefault : String × BlockCommit :=
  ("", rowToCommit ⟨"", "", none, none, none, none, none, none, none, none⟩)

/-- Witness for `fetchCommitData_parent_iff`: the window-root commit of
`wrow1` (positional parent below the lower bound) resolves to an empty
parent. -/
theorem fetchCommitData_parent_iff_witness :
    ((fetchCommitData [wrow1, wrow2]).allCommits.getD 0 wdefault).2.parent
      = "" := by
  have h := fetchCommitData_parent_iff [wrow1, wrow2] 5 (by decide) (by decide)
    (by decide) (by decide) (by decide)
  have hp : (fetchCommitData [wrow1, wrow2]).allCommits.getD 0 wdefault
      ∈ (fetchCommitData [wrow1, wrow2]).allCommits := by decide
  exact (h _ hp).2 (by decide)

/-! ## Winner processing (src/server/miner-viz.ts:165-195) -/

/-- A row of the payments lookup (`block_hash`, `coinbase`). -/
structure PaymentRow where
  block_hash : Option String
  coinbase : Option Int
deriving DecidableEq, Repr

/-- A row of the tenure-fees lookup. -/
structure FeesRow where
  tenure_tx_fees : Option Int
deriving DecidableEq, Repr

/-- `processWinningCommit`: mark the winner, clear the parent's
`potentialTip`, and — only when the canonical stacks tip height is
positive — join the payment record (by consensus hash) and the fee record
(by burn height).  The prepared statements enter as lookup oracles. -/
def processWinningCommit (commit : BlockCommit) (parentCommit : Option BlockCommit)
    (stacksHeight : Int) (consensusHash : String)
    (paymentGet : String → Option PaymentRow)
    (feesGet : Int → Option FeesRow) : BlockCommit × Option BlockCommit :=
  let commit := { commit with won := true, potentialTip := true, stacksHeight := stacksHeight }
  let parentCommit := parentCommit.map (fun p => { p with potentialTip := false })
  if stacksHeight ≤ 0 then (commit, parentCommit)
  else
    let commit :=
      match paymentGet consensusHash with
      | some payment =>
        { commit with
            blockHash := payment.block_hash.getD commit.blockHash
            coinbaseEarned := payment.coinbase.getD commit.coinbaseEarned }
      | none => commit
    let commit :=
      match feesGet commit.burnBlockHeight with
      | some feesRow =>
        match feesRow.tenure_tx_fees with
        | some fees => { commit with feesEarned := fees }
        | none => commit
      | none => commit
    (commit, parentCommit)

/-- C10: when the winner record's canonical stacks tip height is `≤ 0`,
the commitment is still marked `won` (and `potentialTip`) and the parent's
`potentialTip` is cleared, but both joins are skipped, so `blockHash`,
`coinbaseEarned` and `feesEarned` keep their previous (default zero)
values whatever the payment and fee lookups would return. -/
theorem processWinningCommit_nonpositive_skips_joins
    (commit : BlockCommit) (parentCommit : Option BlockCommit)
    (stacksHeight : Int) (consensusHash : String)
    (paymentGet : String → Option PaymentRow)
    (feesGet : Int → Option FeesRow)
    (h : stacksHeight ≤ 0) :
    processWinningCommit commit parentCommit stacksHeight consensusHash
        paymentGet feesGet =
      ({ commit with won := true, potentialTip := true, stacksHeight := stacksHeight },
       parentCommit.map (fun p => { p with potentialTip := false })) := by
  simp [processWinningCommit, h]

/-- Witness for `processWinningCommit_nonpositive_skips_joins` at height
`0` with lookups that do hold matching records. -/
theorem processWinningCommit_nonpositive_skips_joins_witness :
    (processWinningCommit (rowToCommit ⟨"bh", "tx1", some "s", some "so",
        some 1, some 10, some 5, some 9, some 0, none⟩) none 0 "ch"
        (fun _ => some ⟨some "payhash", some 50⟩)
        (fun _ => some ⟨some 7⟩)).1.feesEarned = 0 := by
  rw [processWinningCommit_nonpositive_skips_joins _ _ _ _ _ _ (by decide)]
  rfl

/-! ## Canonical trace (src/server/miner-viz.ts:256-283)

`processCanonicalTip` walks `parentTxid` pointers backwards from the
window tip's winning commitment.  The source `while` loop carries no
bound; the model takes an explicit fuel and returns, besides the updated
graph, the visited txids in order and whether the loop exited through its
own conditions within the fuel — the termination theorem shows that
`windowSize` fuel always suffices on a built graph. -/

/-- The row of the canonical-tip query at the window's start block. -/
structure CanonicalTipRow where
  winning_block_txid : String
deriving DecidableEq, Repr

/-- The `while (tipTxid)` loop: stop on a falsy txid or a missing commit;
otherwise mark `tip` (first iteration only) and `canonical`, then follow
the parent reference. -/
def canonicalLoop : Nat → List (String × BlockCommit) → String → Bool →
    List (String × BlockCommit) × List String × Bool
  | 0, commits, tipTxid, _ =>
    if tipTxid = "" then (commits, [], true)
    else
      match mapGet commits tipTxid with
      | none => (commits, [], true)
      | some _ => (commits, [], false)
  | fuel + 1, commits, tipTxid, isHead =>
    if tipTxid = "" then (commits, [], true)
    else
      match mapGet commits tipTxid with
      | none => (commits, [], true)
      | some commit =>
        let rest := canonicalLoop fuel
          (mapSet commits tipTxid
            { commit with
                tip := if isHead then true else commit.tip
                canonical := true })
          commit.parent false
        (rest.1, tipTxid :: rest.2.1, rest.2.2)

/-- `processCanonicalTip`: start the walk from the winning txid of the
start block's sortition (absent row and empty txid are both falsy). -/
def processCanonicalTip (row : Option CanonicalTipRow)
    (commits : List (String × BlockCommit)) (fuel : Nat) :
    List (String × BlockCommit) × List String × Bool :=
  match row with
  | none => (commits, [], true)
  | some r =>
    if r.winning_block_txid = "" then (commits, [], true)
    else canonicalLoop fuel commits r.winning_block_txid true

/-- Graph shape the walk relies on, established by `fetchCommitData`:
unique txid keys, heights at or above the window's lower bound, and parent
references that resolve to a commit of strictly lower height. -/
def WalkInv (lowerBound : Int) (commits : List (String × BlockCommit)) : Prop :=
  (commits.map Prod.fst).Nodup
  ∧ (∀ p ∈ commits, lowerBound ≤ p.2.burnBlockHeight)
  ∧ (∀ p ∈ commits, p.2.parent ≠ "" →
      ∃ q ∈ commits, q.1 = p.2.parent
        ∧ q.2.burnBlockHeight < p.2.burnBlockHeight)

theorem canonicalLoop_empty_tip (fuel : Nat)
    (commits : List (String × BlockCommit)) (isHead : Bool) :
    canonicalLoop fuel commits "" isHead = (commits, [], true) := by
  cases fuel <;> simp [canonicalLoop]

/-- The walk's in-place marking preserves the graph shape: the updated
commit keeps its height and parent. -/
theorem walkInv_mapSet (lowerBound : Int)
    (commits : List (String × BlockCommit)) (t : String) (c c' : BlockCommit)
    (hinv : WalkInv lowerBound commits)
    (hget : mapGet commits t = some c)
    (hheight : c'.burnBlockHeight = c.burnBlockHeight)
    (hparent : c'.parent = c.parent) :
    WalkInv lowerBound (mapSet commits t c') := by
  obtain ⟨hnd, hlow, hpar⟩ := hinv
  have hkeys : (mapSet commits t c').map Prod.fst = commits.map Prod.fst :=
    mapSet_map_fst_of_isSome commits t c' (by rw [hget]; rfl)
  have hmemc : (t, c) ∈ commits := mem_of_mapGet_eq_some commits t c hget
  refine ⟨by rw [hkeys]; exact hnd, ?_, ?_⟩
  · intro p hp
    rcases mem_mapSet_elim commits t c' p hnd hp with rfl | ⟨hp, _⟩
    · simpa [hheight] using hlow (t, c) hmemc
    · exact hlow p hp
  · intro p hp hppar
    rcases mem_mapSet_elim commits t c' p hnd hp with rfl | ⟨hpmem, hpne⟩
    · simp only [hparent, hheight] at hppar ⊢
      obtain ⟨q, hq, hq1, hq2⟩ := hpar (t, c) hmemc hppar
      by_cases hqt : q.1 = t
      · have hqc : q.2 = c := mapGet_value_eq commits hnd q hq c (hqt ▸ hget)
        rw [hqc] at hq2
        exact absurd hq2 (lt_irrefl c.burnBlockHeight)
      · exact ⟨q, mem_mapSet_of_ne commits t c' q hq hqt, hq1, hq2⟩
    · obtain ⟨q, hq, hq1, hq2⟩ := hpar p hpmem hppar
      by_cases hqt : q.1 = t
      · have hqc : q.2 = c := mapGet_value_eq commits hnd q hq c (hqt ▸ hget)
        refine ⟨(t, c'), mem_mapSet_self commits t c', hqt ▸ hq1, ?_⟩
        simp only [hheight]
        rw [← hqc]
        exact hq2
      · exact ⟨q, mem_mapSet_of_ne commits t c' q hq hqt, hq1, hq2⟩

/-- Full behaviour of the bounded walk on a well-shaped graph with enough
fuel: it exits through its own stopping conditions, visits
pairwise-distinct txids headed by the tip and bounded in number by the
fuel, each visited commit no higher than the tip's, and rewrites the graph
so that a commit's `canonical` flag gains exactly the visited txids and
its `tip` flag gains exactly the head of the visit (when the walk starts
as the head), all other fields untouched. -/
theorem canonicalLoop_spec (lowerBound : Int) :
    ∀ (fuel : Nat) (commits : List (String × BlockCommit)) (tipTxid : String)
      (isHead : Bool),
    WalkInv lowerBound commits →
    (∀ c, tipTxid ≠ "" → mapGet commits tipTxid = some c →
      (c.burnBlockHeight + 1 - lowerBound).toNat ≤ fuel) →
    (canonicalLoop fuel commits tipTxid isHead).2.2 = true
    ∧ (canonicalLoop fuel commits tipTxid isHead).2.1.length ≤ fuel
    ∧ ((canonicalLoop fuel commits tipTxid isHead).2.1 ≠ [] →
        (canonicalLoop fuel commits tipTxid isHead).2.1.head? = some tipTxid)
    ∧ (∀ t ∈ (canonicalLoop fuel commits tipTxid isHead).2.1,
        ∃ cv c, mapGet commits t = some cv ∧ mapGet commits tipTxid = some c
          ∧ cv.burnBlockHeight ≤ c.burnBlockHeight)
    ∧ (canonicalLoop fuel commits tipTxid isHead).2.1.Nodup
    ∧ (∀ p ∈ (canonicalLoop fuel commits tipTxid isHead).1,
        ∃ c0, (p.1, c0) ∈ commits
          ∧ p.2.parent = c0.parent
          ∧ p.2.burnBlockHeight = c0.burnBlockHeight
          ∧ p.2.tip = ((isHead &&
              decide ((canonicalLoop fuel commits tipTxid isHead).2.1.head?
                = some p.1)) || c0.tip)
          ∧ p.2.canonical =
              (decide (p.1 ∈ (canonicalLoop fuel commits tipTxid isHead).2.1)
                || c0.canonical)) := by
  intro fuel
  induction fuel with
  | zero =>
    intro commits tipTxid isHead hinv htip
    by_cases ht : tipTxid = ""
    · rw [ht, canonicalLoop_empty_tip]
      refine ⟨rfl, by simp, by simp, by simp, by simp, ?_⟩
      intro p hp
      exact ⟨p.2, hp, rfl, rfl, by simp, by simp⟩
    · cases hget : mapGet commits tipTxid with
      | none =>
        rw [show canonicalLoop 0 commits tipTxid isHead = (commits, [], true)
          from by simp [canonicalLoop, ht, hget]]
        refine ⟨rfl, by simp, by simp, by simp, by simp, ?_⟩
        intro p hp
        exact ⟨p.2, hp, rfl, rfl, by simp, by simp⟩
      | some c =>
        exfalso
        have hb := htip c ht hget
        have hmem := mem_of_mapGet_eq_some commits tipTxid c hget
        have hlow : lowerBound ≤ c.burnBlockHeight := hinv.2.1 (tipTxid, c) hmem
        omega
  | succ fuel ih =>
    intro commits tipTxid isHead hinv htip
    by_cases ht : tipTxid = ""
    · rw [ht, canonicalLoop_empty_tip]
      refine ⟨rfl, by simp, by simp, by simp, by simp, ?_⟩
      intro p hp
      exact ⟨p.2, hp, rfl, rfl, by simp, by simp⟩
    · cases hget : mapGet commits tipTxid with
      | none =>
        rw [show canonicalLoop (fuel + 1) commits tipTxid isHead
            = (commits, [], true) from by simp [canonicalLoop, ht, hget]]
        refine ⟨rfl, by simp, by simp, by simp, by simp, ?_⟩
        intro p hp
        exact ⟨p.2, hp, rfl, rfl, by simp, by simp⟩
      | some c =>
        have hstep : canonicalLoop (fuel + 1) commits tipTxid isHead
            = ((canonicalLoop fuel
                  (mapSet commits tipTxid
                    { c with tip := if isHead then true else c.tip
                             canonical := true })
                  c.parent false).1,
               tipTxid :: (canonicalLoop fuel
                  (mapSet commits tipTxid
                    { c with tip := if isHead then true else c.tip
                             canonical := true })
                  c.parent false).2.1,
               (canonicalLoop fuel
                  (mapSet commits tipTxid
                    { c with tip := if isHead then true else c.tip
                             canonical := true })
                  c.parent false).2.2) := by
          simp [canonicalLoop, ht, hget]
        set cmarked : BlockCommit :=
          { c with tip := if isHead then true else c.tip
                   canonical := true } with hcmarked
        set m2 := mapSet commits tipTxid cmarked with hm2
        have hmemc : (tipTxid, c) ∈ commits :=
          mem_of_mapGet_eq_some commits tipTxid c hget
        have hnd := hinv.1
        have hinv2 : WalkInv lowerBound m2 :=
          walkInv_mapSet lowerBound commits tipTxid c cmarked hinv hget rfl rfl
        have hm2get : ∀ x, x ≠ tipTxid → mapGet m2 x = mapGet commits x :=
          fun x hx =>
            mapGet_mapSet_ne commits tipTxid x cmarked (fun he => hx he.symm)
        have hm2tip : mapGet m2 tipTxid = some cmarked :=
          mapGet_mapSet_self commits tipTxid cmarked
        have hparfact : c.parent ≠ "" →
            ∃ q ∈ commits, q.1 = c.parent
              ∧ q.2.burnBlockHeight < c.burnBlockHeight :=
          fun hpp => hinv.2.2 (tipTxid, c) hmemc hpp
        have hparne : c.parent ≠ "" → c.parent ≠ tipTxid := by
          intro hpp heq
          obtain ⟨q, hq, hq1, hq2⟩ := hparfact hpp
          have hqc : q.2 = c :=
            mapGet_value_eq commits hnd q hq c (by rw [hq1, heq]; exact hget)
          rw [hqc] at hq2
          exact absurd hq2 (lt_irrefl c.burnBlockHeight)
        have hparc2 : ∀ c2, c.parent ≠ "" → mapGet m2 c.parent = some c2 →
            lowerBound ≤ c2.burnBlockHeight
              ∧ c2.burnBlockHeight < c.burnBlockHeight := by
          intro c2 hpp hg2
          obtain ⟨q, hq, hq1, hq2⟩ := hparfact hpp
          rw [hm2get c.parent (hparne hpp)] at hg2
          have hqv : q.2 = c2 := mapGet_value_eq commits hnd q hq c2 (hq1 ▸ hg2)
          have hl2 : lowerBound ≤ c2.burnBlockHeight :=
            hinv.2.1 (c.parent, c2) (mem_of_mapGet_eq_some _ _ _ hg2)
          rw [hqv] at hq2
          exact ⟨hl2, hq2⟩
        have htip2 : ∀ c2, c.parent ≠ "" → mapGet m2 c.parent = some c2 →
            (c2.burnBlockHeight + 1 - lowerBound).toNat ≤ fuel := by
          intro c2 hpp hg2
          obtain ⟨hl2, hlt2⟩ := hparc2 c2 hpp hg2
          have hb := htip c ht hget
          omega
        obtain ⟨hA, hB, hC, hD, hE, hH⟩ := ih m2 c.parent false hinv2 htip2
        rw [hstep]
        refine ⟨hA, by simpa using hB, fun _ => rfl, ?_, ?_, ?_⟩
        · intro t htmem
          rcases List.mem_cons.mp htmem with rfl | htmem
          · exact ⟨c, c, hget, rfl, le_refl _⟩
          · by_cases hpp : c.parent = ""
            · rw [hpp, canonicalLoop_empty_tip] at htmem
              simp at htmem
            · obtain ⟨cv, c2, hcv, hc2, hle⟩ := hD t htmem
              obtain ⟨_, hlt2⟩ := hparc2 c2 hpp hc2
              by_cases htt : t = tipTxid
              · exact ⟨c, c, htt ▸ hget, rfl, le_refl _⟩
              · rw [hm2get t htt] at hcv
                exact ⟨cv, c, hcv, rfl, by omega⟩
        · refine List.nodup_cons.mpr ⟨?_, hE⟩
          intro hmem
          by_cases hpp : c.parent = ""
          · rw [hpp, canonicalLoop_empty_tip] at hmem
            simp at hmem
          · obtain ⟨cv, c2, hcv, hc2, hle⟩ := hD tipTxid hmem
            obtain ⟨_, hlt2⟩ := hparc2 c2 hpp hc2
            rw [hm2tip] at hcv
            have hcveq : cmarked = cv := Option.some_inj.mp hcv
            rw [← hcveq] at hle
            rw [hcmarked] at hle
            simp only at hle
            omega
        · intro p hp
          obtain ⟨c1, hc1mem, hc1par, hc1h, hc1tip, hc1can⟩ := hH p hp
          rcases mem_mapSet_elim commits tipTxid cmarked (p.1, c1) hnd
            (hm2 ▸ hc1mem) with heq | ⟨hc1commits, hc1ne⟩
          · have hp1 : p.1 = tipTxid := congrArg Prod.fst heq
            have hc1eq : c1 = cmarked := congrArg Prod.snd heq
            refine ⟨c, hp1 ▸ hmemc, ?_, ?_, ?_, ?_⟩
            · rw [hc1par, hc1eq, hcmarked]
            · rw [hc1h, hc1eq, hcmarked]
            · rw [hc1tip, hc1eq, hcmarked]
              cases isHead <;> simp [hp1]
            · rw [hc1can, hc1eq, hcmarked]
              simp [hp1]
          · refine ⟨c1, hc1commits, hc1par, hc1h, ?_, ?_⟩
            · rw [hc1tip]
              have hd : decide (some tipTxid = some p.1) = false := by
                simp only [decide_eq_false_iff_not]
                intro he
                exact hc1ne (Option.some_inj.mp he).symm
              simp only [List.head?_cons, hd, Bool.and_false, Bool.false_and,
                Bool.false_or]
            · rw [hc1can]
              have hmemiff :
                  (p.1 ∈ tipTxid :: (canonicalLoop fuel m2 c.parent false).2.1)
                  ↔ (p.1 ∈ (canonicalLoop fuel m2 c.parent false).2.1) := by
                simp [List.mem_cons, hc1ne]
              simp [hmemiff]

/-- `fetchCommitData` establishes the walk's graph shape: unique keys,
heights within the window, strictly descending parent references, and all
`tip`/`canonical` flags initially false. -/
theorem fetchCommitData_walkInv (rows : List BlockCommitRow)
    (lowerBound startBlock : Int)
    (hsorted : rows.Pairwise (fun r1 r2 => rowHeight r1 ≤ rowHeight r2))
    (hparent : ∀ r ∈ rows, r.parent_block_ptr.getD 0 < rowHeight r)
    (htxids : ∀ r ∈ rows, r.txid ≠ "")
    (hnodup : (rows.map (fun r => r.txid)).Nodup)
    (hlow : ∀ r ∈ rows, lowerBound ≤ rowHeight r)
    (hhigh : ∀ r ∈ rows, rowHeight r ≤ startBlock) :
    WalkInv lowerBound ((fetchCommitData rows).allCommits)
    ∧ (∀ p ∈ (fetchCommitData rows).allCommits,
        p.2.burnBlockHeight ≤ startBlock)
    ∧ (∀ p ∈ (fetchCommitData rows).allCommits,
        p.2.tip = false ∧ p.2.canonical = false) := by
  obtain ⟨inv1, inv2, inv3, inv4⟩ :=
    ingest_invariant rows hsorted hparent htxids hnodup
  rw [fetchCommitData_allCommits]
  refine ⟨⟨?_, ?_, ?_⟩, ?_, ?_⟩
  · rw [inv1]
    exact hnodup
  · intro p hp
    obtain ⟨row_p, hm, _, _, _, _, hh, _, _, _, _⟩ := inv4 p hp
    rw [hh]
    exact hlow row_p hm
  · intro p hp hpar
    obtain ⟨row_p, hm, _, _, _, hpk, hh, _, _, _, hq⟩ := inv4 p hp
    obtain ⟨q, hqm, hq1, hq2⟩ := hq hpar
    refine ⟨q, hqm, hq1, ?_⟩
    obtain ⟨row_q, hmq, _, _, hqkey, _, hqh, _, _, _, _⟩ := inv4 q hqm
    have h1 : q.2.burnBlockHeight = (q.2.key).height := by
      rw [hqh, hqkey]
      rfl
    rw [h1, hq2, hpk, hh]
    exact hparent row_p hm
  · intro p hp
    obtain ⟨row_p, hm, _, _, _, _, hh, _, _, _, _⟩ := inv4 p hp
    rw [hh]
    exact hhigh row_p hm
  · intro p hp
    obtain ⟨_, _, _, _, _, _, _, ht, hc, _, _⟩ := inv4 p hp
    exact ⟨ht, hc⟩

/-- C4: on every commitment graph built by `fetchCommitData` over the
window `[lowerBound, startBlock]` (of `windowSize` heights), the canonical
trace from the tip winner terminates by its own stopping conditions within
`windowSize` steps for any configuration of parent pointers the builder
can produce, visits pairwise-distinct commitments, and in the resulting
graph a commitment is `canonical` exactly when it was visited and `tip`
exactly when it was the first visited. -/
theorem processCanonicalTip_correct (rows : List BlockCommitRow)
    (lowerBound startBlock : Int) (windowSize : Nat)
    (row : Option CanonicalTipRow)
    (hws : windowSize = (startBlock + 1 - lowerBound).toNat)
    (hsorted : rows.Pairwise (fun r1 r2 => rowHeight r1 ≤ rowHeight r2))
    (hparent : ∀ r ∈ rows, r.parent_block_ptr.getD 0 < rowHeight r)
    (htxids : ∀ r ∈ rows, r.txid ≠ "")
    (hnodup : (rows.map (fun r => r.txid)).Nodup)
    (hlow : ∀ r ∈ rows, lowerBound ≤ rowHeight r)
    (hhigh : ∀ r ∈ rows, rowHeight r ≤ startBlock) :
    (processCanonicalTip row (fetchCommitData rows).allCommits
        windowSize).2.2 = true
    ∧ (processCanonicalTip row (fetchCommitData rows).allCommits
        windowSize).2.1.Nodup
    ∧ (processCanonicalTip row (fetchCommitData rows).allCommits
        windowSize).2.1.length ≤ windowSize
    ∧ (∀ p ∈ (processCanonicalTip row (fetchCommitData rows).allCommits
        windowSize).1,
        (p.2.canonical = true
          ↔ p.1 ∈ (processCanonicalTip row (fetchCommitData rows).allCommits
              windowSize).2.1)
        ∧ (p.2.tip = true
          ↔ (processCanonicalTip row (fetchCommitData rows).allCommits
              windowSize).2.1.head? = some p.1)) := by
  obtain ⟨hwalk, hhigh', hflags⟩ := fetchCommitData_walkInv rows lowerBound
    startBlock hsorted hparent htxids hnodup hlow hhigh
  cases row with
  | none =>
    refine ⟨rfl, by simp [processCanonicalTip], by simp [processCanonicalTip],
      ?_⟩
    intro p hp
    obtain ⟨ht, hc⟩ := hflags p hp
    rw [hc, ht]
    simp [processCanonicalTip]
  | some r =>
    by_cases hre : r.winning_block_txid = ""
    · have hpc : processCanonicalTip (some r)
          (fetchCommitData rows).allCommits windowSize
          = ((fetchCommitData rows).allCommits, [], true) := by
        simp [processCanonicalTip, hre]
      rw [hpc]
      refine ⟨rfl, by simp, by simp, ?_⟩
      intro p hp
      obtain ⟨ht, hc⟩ := hflags p hp
      rw [hc, ht]
      simp
    · have hpc : processCanonicalTip (some r)
          (fetchCommitData rows).allCommits windowSize
          = canonicalLoop windowSize (fetchCommitData rows).allCommits
              r.winning_block_txid true := by
        simp [processCanonicalTip, hre]
      rw [hpc]
      have hfuel : ∀ c, r.winning_block_txid ≠ "" →
          mapGet (fetchCommitData rows).allCommits r.winning_block_txid
            = some c →
          (c.burnBlockHeight + 1 - lowerBound).toNat ≤ windowSize := by
        intro c _ hgetc
        have hub : c.burnBlockHeight ≤ startBlock :=
          hhigh' (r.winning_block_txid, c) (mem_of_mapGet_eq_some _ _ _ hgetc)
        rw [hws]
        omega
      obtain ⟨hA, hB, hC, hD, hE, hH⟩ := canonicalLoop_spec lowerBound
        windowSize (fetchCommitData rows).allCommits r.winning_block_txid true
        hwalk hfuel
      refine ⟨hA, hE, hB, ?_⟩
      intro p hp
      obtain ⟨c0, hc0mem, _, _, htipEq, hcanEq⟩ := hH p hp
      obtain ⟨ht0, hc0⟩ := hflags (p.1, c0) hc0mem
      constructor
      · rw [hcanEq, hc0]
        simp
      · rw [htipEq, ht0]
        simp

/-- Witness for `processCanonicalTip_correct`: on the two-commit window of
`wrow1`/`wrow2` (heights 10 and 11, window `[5, 11]`, size 7), the walk
from winner `t2` terminates within the window-size fuel. -/
theorem processCanonicalTip_correct_witness :
    (processCanonicalTip (some ⟨"t2"⟩)
        (fetchCommitData [wrow1, wrow2]).allCommits 7).2.2 = true :=
  (processCanonicalTip_correct [wrow1, wrow2] 5 11 7 (some ⟨"t2"⟩) (by decide)
    (by decide) (by decide) (by decide) (by decide) (by decide) (by decide)).1

/-! ## Miner power aggregation (src/server/miner-power-service.ts:99-207)

`computeMinerPowerSnapshot` consumes the rows of two queries: the
reward-path rows (tenure changes joined with payments) and the grouped
burn-fee totals per sender from the commitment store.  Both row lists are
inputs of the model.  A `NULL` recipient is modelled as the empty string
(both are skipped by the same falsiness test).  Monetary sums stay in
`Int`; the two display fields divide, so they live in `Rat` (`winRate`
with `windowSize = 0` is JavaScript `Infinity`, in `Rat` it is `0`; no
claim depends on it). -/

/-- A row of the reward-path query. -/
structure BlockAggregateRow where
  burn_header_height : Int
  address : String
  burnchain_commit_burn : Int
  stx_reward : Int
deriving DecidableEq, Repr

/-- A row of the grouped burn-fee query. -/
structure BurnFeeRow where
  sender : String
  total_burn_fee : Int
deriving DecidableEq, Repr

/-- The address-correlation maps (a `Set` iterates in insertion order and
is modelled as a list). -/
structure MinerAddressMaps where
  stacksToBtc : List (String × String)
  btcToStacks : List (String × List String)
deriving Repr

/-- One row of the Miner Power snapshot. -/
structure MinerPowerItem where
  stacksRecipient : String
  bitcoinAddress : Option String
  blocksWon : Nat
  btcSpent : Int
  stxEarnt : Rat
  winRate : Rat
deriving DecidableEq, Repr

/-- The Miner Power snapshot. -/
structure MinerPowerSnapshot where
  generatedAt : String
  windowSize : Nat
  bitcoinBlockHeight : Int
  sortitionId : Option String
  items : List MinerPowerItem
deriving Repr

/-- The three per-address accumulators and the counted-row counter of the
reward-path loop. -/
structure PowerTallies where
  btcSpent : List (String × Int)
  stxEarned : List (String × Int)
  blocksWon : List (String × Nat)
  countedRows : Nat
deriving Repr

/-- One iteration of the reward-path loop: rows at or below the lower
bound and rows with a falsy address are skipped and not counted. -/
def tallyRow (lowerBound : Int) (acc : PowerTallies) (row : BlockAggregateRow) :
    PowerTallies :=
  if row.burn_header_height ≤ lowerBound then acc
  else if row.address = "" then acc
  else
    { blocksWon := mapSet acc.blocksWon row.address
        ((mapGet acc.blocksWon row.address).getD 0 + 1)
      btcSpent := mapSet acc.btcSpent row.address
        ((mapGet acc.btcSpent row.address).getD 0 + row.burnchain_commit_burn)
      stxEarned := mapSet acc.stxEarned row.address
        ((mapGet acc.stxEarned row.address).getD 0 + row.stx_reward)
      countedRows := acc.countedRows + 1 }

/-- One iteration of the burn-fee loop: a falsy sender or an unmapped
sender is skipped; otherwise every recipient of the sender's set gets its
spend total *overwritten* by the grouped burn-fee total. -/
def applyBurnFeeRow (maps : MinerAddressMaps) (btcSpent : List (String × Int))
    (row : BurnFeeRow) : List (String × Int) :=
  if row.sender = "" then btcSpent
  else
    match mapGet maps.btcToStacks row.sender with
    | none => btcSpent
    | some stacksSet =>
      stacksSet.foldl (fun m addr => mapSet m addr row.total_burn_fee) btcSpent

/-- The sentinel recipient of the unattributed row. -/
def noCanonicalSortition : String := "No Canonical Sortition"

/-- `computeMinerPowerSnapshot`: reward-path tally, burn-fee overlay, item
construction, sentinel shortfall row, stable sort descending by
`blocksWon`. -/
def computeMinerPowerSnapshot (blockRows : List BlockAggregateRow)
    (burnFeeRows : List BurnFeeRow) (lowerBound : Int) (windowSize : Nat)
    (maps : MinerAddressMaps) (bitcoinBlockHeight : Int)
    (sortitionId : Option String) (generatedAt : String) : MinerPowerSnapshot :=
  let t := blockRows.foldl (tallyRow lowerBound) ⟨[], [], [], 0⟩
  let btcSpent := burnFeeRows.foldl (applyBurnFeeRow maps) t.btcSpent
  let items := t.blocksWon.map (fun p =>
    { stacksRecipient := p.1
      bitcoinAddress := mapGet maps.stacksToBtc p.1
      blocksWon := p.2
      btcSpent := (mapGet btcSpent p.1).getD 0
      stxEarnt := ((mapGet t.stxEarned p.1).getD 0 : Rat) / 1000000
      winRate := ((p.2 : Rat) / (windowSize : Rat)) * 100 : MinerPowerItem })
  let missing := windowSize - t.countedRows
  let items := if missing > 0 then
      items ++ [{ stacksRecipient := noCanonicalSortition
                  bitcoinAddress := none
                  blocksWon := missing
                  btcSpent := 0
                  stxEarnt := 0
                  winRate := ((missing : Rat) / (windowSize : Rat)) * 100 }]
    else items
  -- `items.sort((a, b) => b.blocksWon - a.blocksWon)` is a stable sort by
  -- descending `blocksWon`; every stable sort of a total preorder produces
  -- the same list, so the stable `insertionSort` models it exactly.
  { generatedAt := generatedAt
    windowSize := windowSize
    bitcoinBlockHeight := bitcoinBlockHeight
    sortitionId := sortitionId
    items := items.insertionSort (fun a b => b.blocksWon ≤ a.blocksWon) }

/-- The rows that the reward-path loop counts. -/
def countedRowCount (lowerBound : Int) (blockRows : List BlockAggregateRow) : Nat :=
  (blockRows.filter (fun r =>
    !decide (r.burn_header_height ≤ lowerBound) && !decide (r.address = ""))).length

/-- Total `blocksWon` recorded in a tally map. -/
def sumWon (m : List (String × Nat)) : Nat :=
  (m.map (fun p => p.2)).sum

theorem sumWon_mapSet_incr (m : List (String × Nat)) (k : String) :
    sumWon (mapSet m k ((mapGet m k).getD 0 + 1)) = sumWon m + 1 := by
  induction m with
  | nil => simp [sumWon, mapSet, mapGet]
  | cons p m ih =>
    by_cases h : p.1 = k
    · simp [sumWon, mapSet, mapGet, h]
      omega
    · simp only [mapSet, mapGet, h, if_false]
      simp only [sumWon, List.map_cons, List.sum_cons] at *
      omega

theorem tally_counts (lowerBound : Int) (blockRows : List BlockAggregateRow)
    (acc : PowerTallies) :
    sumWon ((blockRows.foldl (tallyRow lowerBound) acc).blocksWon)
        = sumWon acc.blocksWon + countedRowCount lowerBound blockRows
    ∧ (blockRows.foldl (tallyRow lowerBound) acc).countedRows
        = acc.countedRows + countedRowCount lowerBound blockRows := by
  induction blockRows generalizing acc with
  | nil => simp [countedRowCount]
  | cons row rows ih =>
    by_cases h1 : row.burn_header_height ≤ lowerBound
    · simpa [tallyRow, h1, countedRowCount] using ih acc
    · by_cases h2 : row.address = ""
      · simpa [tallyRow, h1, h2, countedRowCount] using ih acc
      · have step : tallyRow lowerBound acc row =
            { blocksWon := mapSet acc.blocksWon row.address
                ((mapGet acc.blocksWon row.address).getD 0 + 1)
              btcSpent := mapSet acc.btcSpent row.address
                ((mapGet acc.btcSpent row.address).getD 0 + row.burnchain_commit_burn)
              stxEarned := mapSet acc.stxEarned row.address
                ((mapGet acc.stxEarned row.address).getD 0 + row.stx_reward)
              countedRows := acc.countedRows + 1 } := by
          simp [tallyRow, h1, h2]
        have hcount : countedRowCount lowerBound (row :: rows)
            = countedRowCount lowerBound rows + 1 := by
          simp [countedRowCount, h1, h2]
        obtain ⟨ihWon, ihCount⟩ := ih (tallyRow lowerBound acc row)
        constructor
        · rw [List.foldl_cons, ihWon, step]
          simp only
          rw [sumWon_mapSet_incr, hcount]
          omega
        · rw [List.foldl_cons, ihCount, step]
          simp only
          omega

/-- The burn-fee overlay never touches the `blocksWon` tally or the
counter; item `blocksWon` values are exactly the tally's values. -/
theorem items_blocksWon_sum (blockRows : List BlockAggregateRow)
    (burnFeeRows : List BurnFeeRow) (lowerBound : Int) (windowSize : Nat)
    (maps : MinerAddressMaps) (bitcoinBlockHeight : Int)
    (sortitionId : Option String) (generatedAt : String) :
    (((computeMinerPowerSnapshot blockRows burnFeeRows lowerBound windowSize
        maps bitcoinBlockHeight sortitionId generatedAt).items.map
          (fun i => i.blocksWon)).sum)
      = max windowSize (countedRowCount lowerBound blockRows) := by
  have h := tally_counts lowerBound blockRows ⟨[], [], [], 0⟩
  set t := blockRows.foldl (tallyRow lowerBound) ⟨[], [], [], 0⟩ with ht
  obtain ⟨hWon, hCount⟩ := h
  simp only [sumWon, List.map_nil, List.sum_nil, Nat.zero_add] at hWon hCount
  unfold computeMinerPowerSnapshot
  rw [← ht]
  set baseItems := t.blocksWon.map (fun p =>
    { stacksRecipient := p.1
      bitcoinAddress := mapGet maps.stacksToBtc p.1
      blocksWon := p.2
      btcSpent := (mapGet (burnFeeRows.foldl (applyBurnFeeRow maps) t.btcSpent) p.1).getD 0
      stxEarnt := ((mapGet t.stxEarned p.1).getD 0 : Rat) / 1000000
      winRate := ((p.2 : Rat) / (windowSize : Rat)) * 100 : MinerPowerItem }) with hbase
  have hbaseSum : (baseItems.map (fun i => i.blocksWon)).sum
      = countedRowCount lowerBound blockRows := by
    rw [hbase, ← hWon]
    simp only [sumWon, List.map_map]
    rfl
  by_cases hm : windowSize - t.countedRows > 0
  · simp only [hm, if_true]
    have hperm := List.perm_insertionSort
      (fun a b : MinerPowerItem => b.blocksWon ≤ a.blocksWon)
      (baseItems ++ [{ stacksRecipient := noCanonicalSortition
                       bitcoinAddress := none
                       blocksWon := windowSize - t.countedRows
                       btcSpent := 0
                       stxEarnt := 0
                       winRate := (((windowSize - t.countedRows : Nat) : Rat)
                         / (windowSize : Rat)) * 100 : MinerPowerItem }])
    rw [(hperm.map (fun i => i.blocksWon)).sum_eq]
    simp only [List.map_append, List.sum_append, List.map_cons, List.map_nil,
      List.sum_cons, List.sum_nil]
    rw [hbaseSum]
    omega
  · simp only [hm, if_false]
    have hperm := List.perm_insertionSort
      (fun a b : MinerPowerItem => b.blocksWon ≤ a.blocksWon) baseItems
    rw [(hperm.map (fun i => i.blocksWon)).sum_eq, hbaseSum]
    omega

/-- C1 (amended): the `blocksWon` total over all returned rows, sentinel
included, equals `max windowSize countedRows`; it equals the configured
window size exactly whenever the number of counted reward rows does not
exceed the window size. -/
theorem minerPower_count_reconciliation (blockRows : List BlockAggregateRow)
    (burnFeeRows : List BurnFeeRow) (lowerBound : Int) (windowSize : Nat)
    (maps : MinerAddressMaps) (bitcoinBlockHeight : Int)
    (sortitionId : Option String) (generatedAt : String) :
    (((computeMinerPowerSnapshot blockRows burnFeeRows lowerBound windowSize
        maps bitcoinBlockHeight sortitionId generatedAt).items.map
          (fun i => i.blocksWon)).sum)
      = max windowSize (countedRowCount lowerBound blockRows)
    ∧ (countedRowCount lowerBound blockRows ≤ windowSize →
        (((computeMinerPowerSnapshot blockRows burnFeeRows lowerBound windowSize
            maps bitcoinBlockHeight sortitionId generatedAt).items.map
              (fun i => i.blocksWon)).sum) = windowSize) := by
  have h := items_blocksWon_sum blockRows burnFeeRows lowerBound windowSize
    maps bitcoinBlockHeight sortitionId generatedAt
  exact ⟨h, fun hle => by rw [h]; omega⟩

/-- Witness for `minerPower_count_reconciliation`: one counted row in a
window of two reconciles to a total of two. -/
theorem minerPower_count_reconciliation_witness :
    (((computeMinerPowerSnapshot [⟨10, "a", 2, 3⟩] [] 0 2 ⟨[], []⟩ 10 none
        "t").items.map (fun i => i.blocksWon)).sum) = 2 :=
  (minerPower_count_reconciliation [⟨10, "a", 2, 3⟩] [] 0 2 ⟨[], []⟩ 10 none
      "t").2 (by decide)

/-- C1 counterexample: with configured window size 1 and two counted
reward rows (a join can return several payment rows per tenure change) the
returned `blocksWon` total is 2, not the window size. -/
theorem minerPower_count_counterexample :
    (((computeMinerPowerSnapshot [⟨10, "a", 0, 0⟩, ⟨10, "a", 0, 0⟩] [] 0 1
        ⟨[], []⟩ 10 none "t").items.map (fun i => i.blocksWon)).sum) = 2
    ∧ (computeMinerPowerSnapshot [⟨10, "a", 0, 0⟩, ⟨10, "a", 0, 0⟩] [] 0 1
        ⟨[], []⟩ 10 none "t").windowSize = 1 := by
  decide

/-! ### The burn-fee overlay (C3) -/

/-- A burn-fee row reaches a given recipient exactly when its sender is
truthy and the sender's mapped recipient set contains the recipient. -/
def burnFeeRowHits (maps : MinerAddressMaps) (addr : String)
    (row : BurnFeeRow) : Bool :=
  !decide (row.sender = "") &&
    decide (addr ∈ (mapGet maps.btcToStacks row.sender).getD [])

theorem mapGet_foldl_setAll (s : List String) (m : List (String × Int))
    (v : Int) (k : String) :
    mapGet (s.foldl (fun m a => mapSet m a v) m) k
      = if k ∈ s then some v else mapGet m k := by
  induction s generalizing m with
  | nil => simp
  | cons a s ih =>
    simp only [List.foldl_cons]
    rw [ih]
    by_cases hk : k ∈ s
    · simp [hk]
    · by_cases hak : a = k
      · subst hak
        simp [hk, mapGet_mapSet_self]
      · simp [hk, Ne.symm hak, mapGet_mapSet_ne m a k v hak]

/-- Effect of one burn-fee row on one recipient's spend entry. -/
theorem applyBurnFeeRow_get (maps : MinerAddressMaps)
    (m : List (String × Int)) (row : BurnFeeRow) (addr : String) :
    mapGet (applyBurnFeeRow maps m row) addr
      = if burnFeeRowHits maps addr row then some row.total_burn_fee
        else mapGet m addr := by
  unfold applyBurnFeeRow burnFeeRowHits
  by_cases hs : row.sender = ""
  · simp [hs]
  · cases hmap : mapGet maps.btcToStacks row.sender with
    | none => simp [hs, hmap]
    | some stacksSet =>
      simp only [hs, if_false, hmap]
      rw [mapGet_foldl_setAll]
      by_cases hmem : addr ∈ stacksSet
      · simp [hmem, hs]
      · simp [hmem, hs]

/-- C3 (amended): the externally-sourced spend overwrites the per-recipient
spend total unconditionally — the final entry of a recipient reached by at
least one burn-fee row is the total of the last such row, whatever the
reward-path total was; a recipient reached by no burn-fee row keeps its
reward-path total. -/
theorem applyBurnFees_last_overwrite (maps : MinerAddressMaps)
    (rows : List BurnFeeRow) (m : List (String × Int)) (addr : String) :
    (∀ r : BurnFeeRow, (rows.filter (burnFeeRowHits maps addr)).getLast? = some r →
        mapGet (rows.foldl (applyBurnFeeRow maps) m) addr
          = some r.total_burn_fee)
    ∧ ((rows.filter (burnFeeRowHits maps addr)) = [] →
        mapGet (rows.foldl (applyBurnFeeRow maps) m) addr = mapGet m addr) := by
  induction rows generalizing m with
  | nil => simp
  | cons row rows ih =>
    by_cases hhit : burnFeeRowHits maps addr row
    · have hstep : mapGet (applyBurnFeeRow maps m row) addr
          = some row.total_burn_fee := by
        rw [applyBurnFeeRow_get, if_pos hhit]
      constructor
      · intro r hr
        rw [List.filter_cons_of_pos hhit] at hr
        cases hfr : rows.filter (burnFeeRowHits maps addr) with
        | nil =>
          rw [hfr] at hr
          simp only [List.getLast?_singleton, Option.some.injEq] at hr
          subst hr
          rw [List.foldl_cons]
          rw [(ih (applyBurnFeeRow maps m row)).2 hfr, hstep]
        | cons r' rest =>
          rw [hfr, List.getLast?_cons_cons, ← hfr] at hr
          exact List.foldl_cons _ _ ▸ (ih (applyBurnFeeRow maps m row)).1 r hr
      · intro hempty
        rw [List.filter_cons_of_pos hhit] at hempty
        exact absurd hempty (List.cons_ne_nil _ _)
    · have hstep : mapGet (applyBurnFeeRow maps m row) addr = mapGet m addr := by
        rw [applyBurnFeeRow_get, if_neg hhit]
      constructor
      · intro r hr
        rw [List.filter_cons_of_neg hhit] at hr
        rw [List.foldl_cons]
        exact (ih (applyBurnFeeRow maps m row)).1 r hr
      · intro hempty
        rw [List.filter_cons_of_neg hhit] at hempty
        rw [List.foldl_cons, (ih (applyBurnFeeRow maps m row)).2 hempty, hstep]

/-- Witness for `applyBurnFees_last_overwrite`: a recipient whose
reward-path total is the non-zero 5 still ends at the external total 7. -/
theorem applyBurnFees_last_overwrite_witness :
    mapGet (([⟨"b", 7⟩] : List BurnFeeRow).foldl
        (applyBurnFeeRow ⟨[("a", "b")], [("b", ["a"])]⟩) [("a", 5)]) "a"
      = some 7 :=
  (applyBurnFees_last_overwrite ⟨[("a", "b")], [("b", ["a"])]⟩ [⟨"b", 7⟩]
      [("a", 5)] "a").1 ⟨"b", 7⟩ (by decide)

/-- C3 counterexample: recipient `a` has the non-zero reward-path spend 5,
yet the snapshot reports the external total 7 — the overwrite is not
conditional on a zero reward-path total. -/
theorem minerPower_overwrite_counterexample :
    mapGet (([⟨10, "a", 5, 0⟩] : List BlockAggregateRow).foldl (tallyRow 0)
        ⟨[], [], [], 0⟩).btcSpent "a" = some 5
    ∧ (computeMinerPowerSnapshot [⟨10, "a", 5, 0⟩] [⟨"b", 7⟩] 0 1
        ⟨[("a", "b")], [("b", ["a"])]⟩ 10 none "t").items.map
          (fun i => (i.stacksRecipient, i.blocksWon, i.btcSpent))
      = [("a", 1, 7)] := by
  decide

/-! ## Snapshot scheduler (`generateSnapshot` / `runSnapshotGeneration`)

Each fallible operation of one attempt — database opens, the latest-record
read, the address-map build, the two compute stages, the cache insert and
the prune — may throw; an `AttemptEnv` records which one does, together
with the values the external stores return during that attempt
(`getBlockRange`'s query is folded into the sortition open).  The hub
store is threaded explicitly; the rest of the pipeline output is opaque
payload. -/

/-- The environment of one `generateSnapshot` attempt. -/
structure AttemptEnv where
  now : Int
  maxHeight : Option Int
  sortitionId : Option String
  minerPowerJson : String
  d2Source : String
  openSortitionThrows : Bool
  loadLatestThrows : Bool
  openChainstateThrows : Bool
  buildMapsThrows : Bool
  computeVizThrows : Bool
  computePowerThrows : Bool
  insertThrows : Bool
  pruneThrows : Bool
deriving Repr

/-- `generateSnapshot(dataDir)`: returns the hub store after the attempt,
the records the attempt inserted, and whether the attempt completed
without an exception.  An exception anywhere aborts the rest of the
attempt; the single-statement insert is atomic (it either appends the one
complete record or leaves the store unchanged). -/
def generateSnapshot (env : AttemptEnv) (store : List SnapshotRecord) :
    List SnapshotRecord × List SnapshotRecord × Bool :=
  if env.openSortitionThrows then (store, [], false)
  else
    let start := env.maxHeight.getD 0
    if start = 0 then (store, [], true)
    else if env.loadLatestThrows then (store, [], false)
    else if (loadLatestSnapshot store).map (fun r => r.bitcoinBlockHeight)
        = some start then (store, [], true)
    else if env.openChainstateThrows then (store, [], false)
    else if env.buildMapsThrows then (store, [], false)
    else if env.computeVizThrows then (store, [], false)
    else if env.computePowerThrows then (store, [], false)
    else if env.insertThrows then (store, [], false)
    else
      let record : SnapshotRecord :=
        { generatedAt := env.now
          bitcoinBlockHeight := start
          sortitionId := env.sortitionId
          minerPowerJson := env.minerPowerJson
          d2Source := env.d2Source }
      let store1 := insertSnapshot store record
      if env.pruneThrows then (store1, [record], false)
      else (pruneSnapshots env.now SNAPSHOT_MAX_AGE_MS store1, [record], true)

/-- Outcome of one scheduler tick. -/
structure RunResult where
  store : List SnapshotRecord
  inserted : List SnapshotRecord
  delays : List Int
  attemptsUsed : Nat
  succeeded : Bool
deriving Repr

/-- `maxRetries` of `runSnapshotGeneration`. -/
def MAX_SNAPSHOT_ATTEMPTS : Nat := 3

/-- The retry loop `for (attempt = 1; attempt <= maxRetries; attempt++)`:
break on success, otherwise sleep `2000 * attempt` ms before the next
attempt (no sleep after the last). -/
def attemptLoop (envs : Nat → AttemptEnv) (attempt : Nat) (remaining : Nat)
    (store inserted : List SnapshotRecord) (delays : List Int) : RunResult :=
  match remaining with
  | 0 => ⟨store, inserted, delays, attempt - 1, false⟩
  | r + 1 =>
    let res := generateSnapshot (envs attempt) store
    if res.2.2 then ⟨res.1, inserted ++ res.2.1, delays, attempt, true⟩
    else if r = 0 then ⟨res.1, inserted ++ res.2.1, delays, attempt, false⟩
    else attemptLoop envs (attempt + 1) r res.1 (inserted ++ res.2.1)
      (delays ++ [2000 * (attempt : Int)])

/-- `runSnapshotGeneration`: skip the tick when a run is in progress or no
data directory is configured, otherwise run the bounded retry loop. -/
def runSnapshotGeneration (isRunning dataDirSet : Bool)
    (envs : Nat → AttemptEnv) (store : List SnapshotRecord) : RunResult :=
  if isRunning then ⟨store, [], [], 0, true⟩
  else if !dataDirSet then ⟨store, [], [], 0, true⟩
  else attemptLoop envs 1 MAX_SNAPSHOT_ATTEMPTS store [] []

/-- Unfolding: exhausted retry budget. -/
theorem attemptLoop_zero (envs : Nat → AttemptEnv) (attempt : Nat)
    (store inserted : List SnapshotRecord) (delays : List Int) :
    attemptLoop envs attempt 0 store inserted delays
      = ⟨store, inserted, delays, attempt - 1, false⟩ := rfl

/-- Unfolding: a successful attempt breaks the loop. -/
theorem attemptLoop_succ_ok (envs : Nat → AttemptEnv) (attempt r : Nat)
    (store inserted : List SnapshotRecord) (delays : List Int)
    (h : (generateSnapshot (envs attempt) store).2.2 = true) :
    attemptLoop envs attempt (r + 1) store inserted delays
      = ⟨(generateSnapshot (envs attempt) store).1,
         inserted ++ (generateSnapshot (envs attempt) store).2.1,
         delays, attempt, true⟩ := by
  simp only [attemptLoop, h, if_true]

/-- Unfolding: the last attempt fails without a further sleep. -/
theorem attemptLoop_succ_fail_last (envs : Nat → AttemptEnv) (attempt : Nat)
    (store inserted : List SnapshotRecord) (delays : List Int)
    (h : (generateSnapshot (envs attempt) store).2.2 = false) :
    attemptLoop envs attempt 1 store inserted delays
      = ⟨(generateSnapshot (envs attempt) store).1,
         inserted ++ (generateSnapshot (envs attempt) store).2.1,
         delays, attempt, false⟩ := by
  simp only [attemptLoop, h, Bool.false_eq_true, if_false, if_true]

/-- Unfolding: a failed non-final attempt sleeps `2000 * attempt` ms and
retries. -/
theorem attemptLoop_succ_fail_retry (envs : Nat → AttemptEnv) (attempt r : Nat)
    (store inserted : List SnapshotRecord) (delays : List Int)
    (h : (generateSnapshot (envs attempt) store).2.2 = false) (hr : r ≠ 0) :
    attemptLoop envs attempt (r + 1) store inserted delays
      = attemptLoop envs (attempt + 1) r
          (generateSnapshot (envs attempt) store).1
          (inserted ++ (generateSnapshot (envs attempt) store).2.1)
          (delays ++ [2000 * (attempt : Int)]) := by
  simp only [attemptLoop, h, Bool.false_eq_true, if_false, hr]

/-- Every attempt either leaves the store untouched, or appends exactly
one complete record (pruning afterwards only when it succeeds). -/
theorem generateSnapshot_frame (env : AttemptEnv) (store : List SnapshotRecord) :
    ((generateSnapshot env store).1 = store
      ∧ (generateSnapshot env store).2.1 = [])
    ∨ (∃ record : SnapshotRecord,
        record.generatedAt = env.now
        ∧ record.bitcoinBlockHeight = env.maxHeight.getD 0
        ∧ ((generateSnapshot env store)
              = (insertSnapshot store record, [record], false)
          ∨ (generateSnapshot env store)
              = (pruneSnapshots env.now SNAPSHOT_MAX_AGE_MS
                  (insertSnapshot store record), [record], true))) := by
  unfold generateSnapshot
  by_cases h1 : env.openSortitionThrows
  · left; simp [h1]
  by_cases h2 : env.maxHeight.getD 0 = 0
  · left; simp [h1, h2]
  by_cases h3 : env.loadLatestThrows
  · left; simp [h1, h2, h3]
  by_cases h4 : (loadLatestSnapshot store).map (fun r => r.bitcoinBlockHeight)
      = some (env.maxHeight.getD 0)
  · left; simp [h1, h2, h3, h4]
  by_cases h5 : env.openChainstateThrows
  · left; simp [h1, h2, h3, h4, h5]
  by_cases h6 : env.buildMapsThrows
  · left; simp [h1, h2, h3, h4, h5, h6]
  by_cases h7 : env.computeVizThrows
  · left; simp [h1, h2, h3, h4, h5, h6, h7]
  by_cases h8 : env.computePowerThrows
  · left; simp [h1, h2, h3, h4, h5, h6, h7, h8]
  by_cases h9 : env.insertThrows
  · left; simp [h1, h2, h3, h4, h5, h6, h7, h8, h9]
  by_cases h10 : env.pruneThrows
  · right
    refine ⟨⟨env.now, env.maxHeight.getD 0, env.sortitionId,
      env.minerPowerJson, env.d2Source⟩, rfl, rfl, Or.inl ?_⟩
    simp [h1, h2, h3, h4, h5, h6, h7, h8, h9, h10]
  · right
    refine ⟨⟨env.now, env.maxHeight.getD 0, env.sortitionId,
      env.minerPowerJson, env.d2Source⟩, rfl, rfl, Or.inr ?_⟩
    simp [h1, h2, h3, h4, h5, h6, h7, h8, h9, h10]

/-- In a run where every attempt fails, the final store is the initial
store extended by the (complete) records of the attempts that failed only
after their insert. -/
theorem attemptLoop_fail_frame (envs : Nat → AttemptEnv) :
    ∀ (r attempt : Nat) (store0 store inserted : List SnapshotRecord)
      (delays : List Int),
    store = store0 ++ inserted →
    (attemptLoop envs attempt r store inserted delays).succeeded = false →
    (attemptLoop envs attempt r store inserted delays).store
      = store0 ++ (attemptLoop envs attempt r store inserted delays).inserted := by
  intro r
  induction r with
  | zero => intro attempt store0 store inserted delays hstore _; exact hstore
  | succ r ih =>
    intro attempt store0 store inserted delays hstore hfail
    cases hok : (generateSnapshot (envs attempt) store).2.2 with
    | true =>
      rw [attemptLoop_succ_ok envs attempt r store inserted delays hok] at hfail
      exact absurd hfail (by simp)
    | false =>
      rcases generateSnapshot_frame (envs attempt) store with
        ⟨hs, hi⟩ | ⟨record, _, _, hcase | hcase⟩
      · cases r with
        | zero =>
          rw [attemptLoop_succ_fail_last envs attempt store inserted delays hok]
          simp only
          rw [hs, hi, List.append_nil, hstore]
        | succ r' =>
          rw [attemptLoop_succ_fail_retry envs attempt (r' + 1) store inserted
            delays hok (Nat.succ_ne_zero r')] at hfail ⊢
          rw [hs, hi, List.append_nil] at hfail ⊢
          exact ih (attempt + 1) store0 store inserted _ hstore hfail
      · have hs1 : (generateSnapshot (envs attempt) store).1
            = store ++ [record] := by rw [hcase]; rfl
        have hi1 : (generateSnapshot (envs attempt) store).2.1 = [record] := by
          rw [hcase]
        cases r with
        | zero =>
          rw [attemptLoop_succ_fail_last envs attempt store inserted delays hok]
          simp only
          rw [hs1, hi1, hstore, List.append_assoc]
        | succ r' =>
          rw [attemptLoop_succ_fail_retry envs attempt (r' + 1) store inserted
            delays hok (Nat.succ_ne_zero r')] at hfail ⊢
          rw [hs1, hi1] at hfail ⊢
          exact ih (attempt + 1) store0 (store ++ [record])
            (inserted ++ [record]) _ (by rw [hstore, List.append_assoc]) hfail
      · rw [hcase] at hok
        exact absurd hok (by simp)

/-- The linear delay schedule `2000·1, 2000·2, …` ms. -/
def delaySchedule (n : Nat) : List Int :=
  (List.range n).map (fun i => 2000 * ((i : Int) + 1))

theorem delaySchedule_succ (n : Nat) :
    delaySchedule (n + 1) = delaySchedule n ++ [2000 * ((n : Int) + 1)] := by
  simp [delaySchedule, List.range_succ]

/-- The delay list after the loop is always the linear schedule of the
failed non-final attempts, and at most `attempt - 1 + remaining` attempts
are numbered. -/
theorem attemptLoop_schedule (envs : Nat → AttemptEnv) :
    ∀ (r attempt : Nat) (store inserted : List SnapshotRecord)
      (delays : List Int),
    1 ≤ r →
    1 ≤ attempt →
    delays = delaySchedule (attempt - 1) →
    (attemptLoop envs attempt r store inserted delays).attemptsUsed
        ≤ attempt - 1 + r
    ∧ (attemptLoop envs attempt r store inserted delays).delays
        = delaySchedule
            ((attemptLoop envs attempt r store inserted delays).attemptsUsed - 1) := by
  intro r
  induction r with
  | zero =>
    intro attempt store inserted delays hr
    exact absurd hr (by omega)
  | succ r ih =>
    intro attempt store inserted delays _ h1 hdelays
    cases hok : (generateSnapshot (envs attempt) store).2.2 with
    | true =>
      rw [attemptLoop_succ_ok envs attempt r store inserted delays hok]
      refine ⟨by simp only; omega, ?_⟩
      simp only
      rw [hdelays]
    | false =>
      cases r with
      | zero =>
        rw [attemptLoop_succ_fail_last envs attempt store inserted delays hok]
        refine ⟨by simp only; omega, ?_⟩
        simp only
        rw [hdelays]
      | succ r' =>
        rw [attemptLoop_succ_fail_retry envs attempt (r' + 1) store inserted
          delays hok (Nat.succ_ne_zero r')]
        have hnew : delays ++ [2000 * (attempt : Int)]
            = delaySchedule (attempt + 1 - 1) := by
          have h2 : attempt - 1 + 1 = attempt := by omega
          rw [hdelays, Nat.add_sub_cancel, ← h2, delaySchedule_succ, h2]
          congr 2
          omega
        have := ih (attempt + 1) (generateSnapshot (envs attempt) store).1
          (inserted ++ (generateSnapshot (envs attempt) store).2.1)
          (delays ++ [2000 * (attempt : Int)]) (by omega) (by omega) hnew
        exact ⟨by omega, this.2⟩

theorem runSnapshotGeneration_eq_attemptLoop (envs : Nat → AttemptEnv)
    (store : List SnapshotRecord) :
    runSnapshotGeneration false true envs store
      = attemptLoop envs 1 MAX_SNAPSHOT_ATTEMPTS store [] [] := rfl

/-- C5 (amended): any exception retries the entire run up to 2 additional
times, with the linearly increasing delays `2000·1, 2000·2` ms between
attempts; when every attempt fails, the cache is its previous contents
extended by exactly the complete records of the attempts that failed only
after their atomic insert — in particular it is unchanged when no attempt
reached the insert step, and a partial record is never written. -/
theorem runSnapshotGeneration_retries (envs : Nat → AttemptEnv)
    (store : List SnapshotRecord) :
    (runSnapshotGeneration false true envs store).attemptsUsed ≤ 3
    ∧ (runSnapshotGeneration false true envs store).delays
        = delaySchedule
            ((runSnapshotGeneration false true envs store).attemptsUsed - 1)
    ∧ ((runSnapshotGeneration false true envs store).succeeded = false →
        (runSnapshotGeneration false true envs store).store
          = store ++ (runSnapshotGeneration false true envs store).inserted)
    ∧ ((runSnapshotGeneration false true envs store).succeeded = false →
        (runSnapshotGeneration false true envs store).inserted = [] →
        (runSnapshotGeneration false true envs store).store = store) := by
  rw [runSnapshotGeneration_eq_attemptLoop]
  unfold MAX_SNAPSHOT_ATTEMPTS
  have hsch := attemptLoop_schedule envs 3 1 store [] [] (by omega) (by omega)
    (by simp [delaySchedule])
  refine ⟨le_trans hsch.1 (by omega), hsch.2, ?_, ?_⟩
  · intro hf
    exact attemptLoop_fail_frame envs 3 1 store store [] [] (by simp) hf
  · intro hf hins
    have := attemptLoop_fail_frame envs 3 1 store store [] [] (by simp) hf
    rw [this, hins, List.append_nil]

/-- An attempt whose first store open throws. -/
def openFailEnv : AttemptEnv :=
  ⟨0, some 5, none, "[]", "", true, false, false, false, false, false, false,
    false⟩

/-- Witness for `runSnapshotGeneration_retries`: three attempts that all
fail to open the store leave the cache unchanged. -/
theorem runSnapshotGeneration_retries_witness :
    (runSnapshotGeneration false true (fun _ => openFailEnv) []).store = [] :=
  (runSnapshotGeneration_retries (fun _ => openFailEnv) []).2.2.2 (by decide)
    (by decide)

/-- An attempt whose prune throws after its insert succeeded. -/
def pruneFailEnv : AttemptEnv :=
  ⟨0, some 5, none, "[]", "", false, false, false, false, false, false, false,
    true⟩

/-- The counterexample schedule: insert-then-prune-failure, then two
open failures. -/
def cexEnvs : Nat → AttemptEnv :=
  fun attempt => if attempt = 1 then pruneFailEnv else openFailEnv

/-- C5 counterexample: every attempt of the run fails, yet a Snapshot
Record was written (the first attempt failed only in the prune after its
insert), so the cache does not retain its previous contents. -/
theorem runSnapshot_allfail_counterexample :
    (runSnapshotGeneration false true cexEnvs []).succeeded = false
    ∧ (runSnapshotGeneration false true cexEnvs []).inserted ≠ []
    ∧ (runSnapshotGeneration false true cexEnvs []).store ≠ [] := by
  decide

/-! ### Idempotent scheduling (C6) -/

/-- No operation of the attempt throws. -/
def noThrows (env : AttemptEnv) : Prop :=
  env.openSortitionThrows = false ∧ env.loadLatestThrows = false
  ∧ env.openChainstateThrows = false ∧ env.buildMapsThrows = false
  ∧ env.computeVizThrows = false ∧ env.computePowerThrows = false
  ∧ env.insertThrows = false ∧ env.pruneThrows = false

/-- When the cached height equals the store's current maximum height, the
attempt reaches at most the skip check and neither writes nor changes the
store, whatever else throws. -/
theorem generateSnapshot_skip_cached (env : AttemptEnv)
    (store : List SnapshotRecord)
    (h : (loadLatestSnapshot store).map (fun r => r.bitcoinBlockHeight)
      = some (env.maxHeight.getD 0)) :
    (generateSnapshot env store).1 = store
    ∧ (generateSnapshot env store).2.1 = [] := by
  unfold generateSnapshot
  by_cases h1 : env.openSortitionThrows
  · simp [h1]
  by_cases h2 : env.maxHeight.getD 0 = 0
  · simp [h1, h2]
  by_cases h3 : env.loadLatestThrows
  · simp [h1, h2, h3]
  · simp [h1, h2, h3, h]

/-- A whole tick under an unchanged, already-cached upstream height leaves
the store untouched and writes nothing, whatever throws. -/
theorem attemptLoop_skip_cached (envs : Nat → AttemptEnv) (cached : Int)
    (hheights : ∀ k, (envs k).maxHeight.getD 0 = cached) :
    ∀ (r attempt : Nat) (store inserted : List SnapshotRecord)
      (delays : List Int),
    (loadLatestSnapshot store).map (fun rr => rr.bitcoinBlockHeight)
      = some cached →
    (attemptLoop envs attempt r store inserted delays).store = store
    ∧ (attemptLoop envs attempt r store inserted delays).inserted = inserted := by
  intro r
  induction r with
  | zero =>
    intro attempt store inserted delays _
    rw [attemptLoop_zero]
    exact ⟨rfl, rfl⟩
  | succ r ih =>
    intro attempt store inserted delays hcache
    have hskip := generateSnapshot_skip_cached (envs attempt) store
      (by rw [hheights attempt]; exact hcache)
    cases hok : (generateSnapshot (envs attempt) store).2.2 with
    | true =>
      rw [attemptLoop_succ_ok envs attempt r store inserted delays hok]
      exact ⟨hskip.1, by rw [hskip.2, List.append_nil]⟩
    | false =>
      cases r with
      | zero =>
        rw [attemptLoop_succ_fail_last envs attempt store inserted delays hok]
        exact ⟨hskip.1, by rw [hskip.2, List.append_nil]⟩
      | succ r' =>
        rw [attemptLoop_succ_fail_retry envs attempt (r' + 1) store inserted
          delays hok (Nat.succ_ne_zero r')]
        rw [hskip.1, hskip.2, List.append_nil]
        exact ih (attempt + 1) store inserted _ hcache

/-- An attempt with no thrown operation completes. -/
theorem generateSnapshot_noThrows_ok (env : AttemptEnv)
    (store : List SnapshotRecord) (h : noThrows env) :
    (generateSnapshot env store).2.2 = true := by
  obtain ⟨h1, h2, h3, h4, h5, h6, h7, h8⟩ := h
  unfold generateSnapshot
  by_cases hz : env.maxHeight.getD 0 = 0
  · simp [h1, hz]
  by_cases hl : (loadLatestSnapshot store).map (fun r => r.bitcoinBlockHeight)
      = some (env.maxHeight.getD 0)
  · simp [h1, h2, hz, hl]
  · simp [h1, h2, h3, h4, h5, h6, h7, h8, hz, hl]

/-- A tick with no thrown operation is its first attempt. -/
theorem run_noThrows (env : AttemptEnv) (store : List SnapshotRecord)
    (h : noThrows env) :
    runSnapshotGeneration false true (fun _ => env) store
      = ⟨(generateSnapshot env store).1, (generateSnapshot env store).2.1,
         [], 1, true⟩ := by
  rw [runSnapshotGeneration_eq_attemptLoop]
  rw [show MAX_SNAPSHOT_ATTEMPTS = 2 + 1 from rfl]
  rw [attemptLoop_succ_ok (fun _ => env) 1 2 store [] []
    (generateSnapshot_noThrows_ok env store h)]
  simp

/-- The no-throw attempt on a nonzero, not-yet-cached height appends one
record and prunes. -/
theorem generateSnapshot_noThrows_write (env : AttemptEnv)
    (store : List SnapshotRecord) (h : noThrows env)
    (hz : env.maxHeight.getD 0 ≠ 0)
    (hl : (loadLatestSnapshot store).map (fun r => r.bitcoinBlockHeight)
      ≠ some (env.maxHeight.getD 0)) :
    generateSnapshot env store
      = (pruneSnapshots env.now SNAPSHOT_MAX_AGE_MS
          (insertSnapshot store ⟨env.now, env.maxHeight.getD 0,
            env.sortitionId, env.minerPowerJson, env.d2Source⟩),
         [⟨env.now, env.maxHeight.getD 0, env.sortitionId, env.minerPowerJson,
            env.d2Source⟩], true) := by
  obtain ⟨h1, h2, h3, h4, h5, h6, h7, h8⟩ := h
  unfold generateSnapshot
  simp [h1, h2, h3, h4, h5, h6, h7, h8, hz, hl]

/-- The attempt on a zero upstream height returns without writing. -/
theorem generateSnapshot_zero_height (env : AttemptEnv)
    (store : List SnapshotRecord) (h1 : env.openSortitionThrows = false)
    (hz : env.maxHeight.getD 0 = 0) :
    generateSnapshot env store = (store, [], true) := by
  unfold generateSnapshot
  simp [h1, hz]

/-- The skip attempt on an already-cached height returns without writing. -/
theorem generateSnapshot_cached_height (env : AttemptEnv)
    (store : List SnapshotRecord) (h1 : env.openSortitionThrows = false)
    (h3 : env.loadLatestThrows = false) (hz : env.maxHeight.getD 0 ≠ 0)
    (hl : (loadLatestSnapshot store).map (fun r => r.bitcoinBlockHeight)
      = some (env.maxHeight.getD 0)) :
    generateSnapshot env store = (store, [], true) := by
  unfold generateSnapshot
  simp [h1, h3, hz, hl]

/-- The just-written record is the latest one after the prune (it is never
pruned by its own pass, its timestamp being at the cutoff's `now`). -/
theorem loadLatest_after_write (store : List SnapshotRecord)
    (rec : SnapshotRecord) (now maxAge : Int)
    (hkeep : ¬ rec.generatedAt < now - maxAge) :
    loadLatestSnapshot (pruneSnapshots now maxAge (insertSnapshot store rec))
      = some rec := by
  unfold loadLatestSnapshot pruneSnapshots insertSnapshot
  rw [List.filter_append]
  simp [hkeep]

/-- C6 (amended): on a tick where the sortition store's maximum commitment
height equals the `bitcoinBlockHeight` of the most recently cached record,
the run writes nothing and leaves the cache untouched (whatever throws);
and across two consecutive exception-free ticks with unchanged upstream
height, at most one Snapshot Record is written — exactly one when the
height is nonzero and was not already cached before the first tick. -/
theorem snapshotScheduler_idempotent (envs : Nat → AttemptEnv)
    (env1 env2 : AttemptEnv) (store : List SnapshotRecord) (cached : Int) :
    ((∀ k, (envs k).maxHeight.getD 0 = cached) →
      (loadLatestSnapshot store).map (fun r => r.bitcoinBlockHeight)
        = some cached →
      (runSnapshotGeneration false true envs store).inserted = []
      ∧ (runSnapshotGeneration false true envs store).store = store)
    ∧ (noThrows env1 → noThrows env2 → env2.maxHeight = env1.maxHeight →
       (runSnapshotGeneration false true (fun _ => env1) store).inserted.length
         + (runSnapshotGeneration false true (fun _ => env2)
             (runSnapshotGeneration false true (fun _ => env1) store).store).inserted.length
         ≤ 1
       ∧ (env1.maxHeight.getD 0 ≠ 0 →
          (loadLatestSnapshot store).map (fun r => r.bitcoinBlockHeight)
            ≠ some (env1.maxHeight.getD 0) →
          (runSnapshotGeneration false true (fun _ => env1) store).inserted.length
            + (runSnapshotGeneration false true (fun _ => env2)
                (runSnapshotGeneration false true (fun _ => env1) store).store).inserted.length
            = 1)) := by
  constructor
  · intro hh hc
    have hskip := attemptLoop_skip_cached envs cached hh 3 1 store [] [] hc
    rw [runSnapshotGeneration_eq_attemptLoop]
    unfold MAX_SNAPSHOT_ATTEMPTS
    exact ⟨hskip.2, hskip.1⟩
  · intro h1 h2 hsame
    have hz2eq : env2.maxHeight.getD 0 = env1.maxHeight.getD 0 := by
      rw [hsame]
    rw [run_noThrows env1 store h1]
    by_cases hz : env1.maxHeight.getD 0 = 0
    · rw [generateSnapshot_zero_height env1 store h1.1 hz]
      simp only
      rw [run_noThrows env2 store h2,
        generateSnapshot_zero_height env2 store h2.1 (hz2eq.trans hz)]
      exact ⟨by simp, fun hz' _ => absurd hz hz'⟩
    · by_cases hl : (loadLatestSnapshot store).map
          (fun r => r.bitcoinBlockHeight) = some (env1.maxHeight.getD 0)
      · rw [generateSnapshot_cached_height env1 store h1.1 h1.2.1 hz hl]
        simp only
        rw [run_noThrows env2 store h2,
          generateSnapshot_cached_height env2 store h2.1 h2.2.1
            (fun h0 => hz (hz2eq ▸ h0)) (by rw [hz2eq]; exact hl)]
        exact ⟨by simp, fun _ hl' => absurd hl hl'⟩
      · rw [generateSnapshot_noThrows_write env1 store h1 hz hl]
        simp only
        have hkeep : ¬ (⟨env1.now, env1.maxHeight.getD 0, env1.sortitionId,
            env1.minerPowerJson, env1.d2Source⟩ : SnapshotRecord).generatedAt
              < env1.now - SNAPSHOT_MAX_AGE_MS := by
          unfold SNAPSHOT_MAX_AGE_MS
          simp only
          omega
        have hlatest := loadLatest_after_write store
          ⟨env1.now, env1.maxHeight.getD 0, env1.sortitionId,
            env1.minerPowerJson, env1.d2Source⟩ env1.now SNAPSHOT_MAX_AGE_MS hkeep
        rw [run_noThrows env2 _ h2,
          generateSnapshot_cached_height env2 _ h2.1 h2.2.1
            (fun h0 => hz (hz2eq ▸ h0)) (by rw [hlatest, hz2eq]; rfl)]
        exact ⟨by simp, fun _ _ => by simp⟩

/-- A throw-free attempt environment reading upstream height 5. -/
def idleEnv : AttemptEnv :=
  ⟨200, some 5, none, "[]", "", false, false, false, false, false, false,
    false, false⟩

/-- A cache whose most recent record already carries height 5. -/
def cachedStore : List SnapshotRecord := [⟨100, 5, none, "[]", ""⟩]

/-- Witness for `snapshotScheduler_idempotent`: a tick over an
already-cached height writes nothing. -/
theorem snapshotScheduler_idempotent_witness :
    (runSnapshotGeneration false true (fun _ => idleEnv) cachedStore).inserted
      = [] :=
  ((snapshotScheduler_idempotent (fun _ => idleEnv) idleEnv idleEnv
      cachedStore 5).1 (fun _ => rfl) (by decide)).1

/-- C6 counterexample: two consecutive exception-free ticks with unchanged
upstream height 5 write zero records in total — not exactly one — because
the height was already cached before the first tick. -/
theorem consecutiveTicks_counterexample :
    (runSnapshotGeneration false true (fun _ => idleEnv) cachedStore).inserted.length
      + (runSnapshotGeneration false true (fun _ => idleEnv)
          (runSnapshotGeneration false true (fun _ => idleEnv)
            cachedStore).store).inserted.length = 0
    ∧ (runSnapshotGeneration false true (fun _ => idleEnv) cachedStore).inserted.length
      + (runSnapshotGeneration false true (fun _ => idleEnv)
          (runSnapshotGeneration false true (fun _ => idleEnv)
            cachedStore).store).inserted.length ≠ 1 := by
  decide

end HubStx

